import Mathlib

/-!
The class `essentials::basic_string_view`.

A shallow embedding of `src/string_view.hpp`.

Conventions of the embedding:

* Code units (`Char`) are natural numbers; `Traits` is `std::char_traits`, whose
  operations are modelled after their standard contract.
* Memory is a total map from addresses to code units. A pointer is an address,
  `nullptr` is address `0`, pointer arithmetic is addition of addresses.
* `size_t` is 64 bits wide and `int` is 32 bits wide (LP64). Values of type
  `size_type` are natural numbers below `SIZE_MOD`; where the C++ arithmetic can
  wrap, the embedding reduces modulo `SIZE_MOD` explicitly.
* A call either returns, throws `std::out_of_range`, or exhausts its fuel. The
  `while(true)` loops and the length scan of a null-terminated sequence take their
  fuel as a parameter; the counted `for` loops are given their trip count as fuel.
* A method that changes the view or writes memory returns its outcome together with
  the state after the call.
-/

namespace essentials

/-- Width of `size_t`: two to the power 64. -/
def SIZE_MOD : Nat := 18446744073709551616

/-- Width of `int`: two to the power 32. -/
def INT_MOD : Nat := 4294967296

/-- Memory: address to code unit. -/
abbrev Mem := Nat → Nat

/-- Outcome of a call. -/
inductive Res (α : Type) where
  | ret : α → Res α
  | out_of_range : Res α
  | out_of_fuel : Res α
deriving DecidableEq, Repr

/-- The class `basic_string_view`: `const Char* data_` and `size_t size_`. -/
structure basic_string_view where
  data_ : Nat
  size_ : Nat
deriving DecidableEq, Repr

/-- Conversion of a `size_t` value to `int` (keeps the low 32 bits, two's complement). -/
def to_int (x : Nat) : Int :=
  if x % INT_MOD < INT_MOD / 2 then ((x % INT_MOD : Nat) : Int)
  else ((x % INT_MOD : Nat) : Int) - (INT_MOD : Int)

/-- Subtraction of two `size_t` values, wrapping modulo `SIZE_MOD`. -/
def size_sub (a b : Nat) : Nat := (a % SIZE_MOD + SIZE_MOD - b % SIZE_MOD) % SIZE_MOD

/-- Addition of two `size_t` values, wrapping modulo `SIZE_MOD`. -/
def size_add (a b : Nat) : Nat := (a + b) % SIZE_MOD

namespace Traits

/-- Contract of `std::char_traits::compare(p, q, count)`: lexicographic three-way
comparison of the first `count` units at `p` and at `q`. -/
def compare (m : Mem) (p q : Nat) : Nat → Int
  | 0 => 0
  | n + 1 =>
    if m p < m q then -1
    else if m q < m p then 1
    else compare m (p + 1) (q + 1) n

/-- Contract of `std::char_traits::find(p, count, ch)`: pointer to the first unit equal
to `ch` among the `count` units at `p`; `none` is the null pointer. -/
def find (m : Mem) (p : Nat) : Nat → Nat → Option Nat
  | 0, _ => none
  | n + 1, ch => if m p = ch then some p else find m (p + 1) n ch

/-- Contract of `std::char_traits::eq`. -/
def eq (a b : Nat) : Bool := decide (a = b)

/-- Contract of `std::char_traits::length(p)`: the number of units before the first
null unit at or after `p`; the scan is run on fuel. -/
def length (m : Mem) : Nat → Nat → Res Nat
  | 0, _ => Res.out_of_fuel
  | fuel + 1, p =>
    if m p = 0 then Res.ret 0
    else
      match length m fuel (p + 1) with
      | Res.ret n => Res.ret (n + 1)
      | Res.out_of_range => Res.out_of_range
      | Res.out_of_fuel => Res.out_of_fuel

/-- Contract of `std::char_traits::copy(dest, src, count)`: assigns unit `i` of `src` to
unit `i` of `dest` for each `i < count`, in order. The standard defines it for ranges
that do not overlap. -/
def copy (m : Mem) (dest src : Nat) : Nat → Mem
  | 0 => m
  | n + 1 => copy (fun a => if a = dest then m src else m a) (dest + 1) (src + 1) n

end Traits

namespace basic_string_view

/-- The constant `npos = ~size_type(0)`. -/
def npos : Nat := SIZE_MOD - 1

/-- The private helper `min(lhv, rhv)`: `lhv < rhv ? lhv : rhv`. -/
def min (lhv rhv : Nat) : Nat := if lhv < rhv then lhv else rhv

/-- The default constructor: `data_ = nullptr`, `size_ = 0`. -/
def default_view : basic_string_view := ⟨0, 0⟩

/-- The unit sequence a view denotes in memory `m`. -/
def units (m : Mem) (s : basic_string_view) : List Nat :=
  (List.range s.size_).map (fun i => m (s.data_ + i))

/-- Method `operator[](ix)`: `data_[ix]`, unchecked. -/
def index (m : Mem) (s : basic_string_view) (ix : Nat) : Nat := m (s.data_ + ix)

/-- Method `at(ix)`. -/
def «at» (m : Mem) (s : basic_string_view) (ix : Nat) : Res Nat :=
  if ix ≥ s.size_ then Res.out_of_range else Res.ret (m (s.data_ + ix))

/-- Method `front()`: `*data_`. -/
def front (m : Mem) (s : basic_string_view) : Nat := m s.data_

/-- Method `empty()`. -/
def empty (s : basic_string_view) : Bool := decide (s.size_ = 0)

/-- Method `substr(pos, count)`. The subtraction `size_ - pos` is reached only with
`pos ≤ size_`, where it does not wrap. -/
def substr (s : basic_string_view) (pos : Nat) (count : Nat) : Res basic_string_view :=
  if pos > s.size_ then Res.out_of_range
  else
    let rcount := min count (s.size_ - pos)
    let rdata := s.data_ + pos
    Res.ret ⟨rdata, rcount⟩

/-- Method `compare(basic_string_view v)`. -/
def compare (m : Mem) (s v : basic_string_view) : Int :=
  let rlen := min s.size_ v.size_
  let chcomp := Traits.compare m s.data_ v.data_ rlen
  if chcomp ≠ 0 then chcomp else to_int (size_sub s.size_ v.size_)

/-- Friend `operator==`. -/
def operator_eq (m : Mem) (lhv rhv : basic_string_view) : Bool :=
  decide (lhv.size_ = rhv.size_) && decide (compare m lhv rhv = 0)

/-- Friend `operator!=`. -/
def operator_ne (m : Mem) (lhv rhv : basic_string_view) : Bool :=
  !(operator_eq m lhv rhv)

/-- Friend `operator<`, from `COMPARE_TO_OP(<)`. -/
def operator_lt (m : Mem) (lhv rhv : basic_string_view) : Bool :=
  decide (compare m lhv rhv < 0)

/-- Friend `operator<=`, from `COMPARE_TO_OP(<=)`. -/
def operator_le (m : Mem) (lhv rhv : basic_string_view) : Bool :=
  decide (compare m lhv rhv ≤ 0)

/-- Friend `operator>`, from `COMPARE_TO_OP(>)`. -/
def operator_gt (m : Mem) (lhv rhv : basic_string_view) : Bool :=
  decide (compare m lhv rhv > 0)

/-- Friend `operator>=`, from `COMPARE_TO_OP(>=)`. -/
def operator_ge (m : Mem) (lhv rhv : basic_string_view) : Bool :=
  decide (compare m lhv rhv ≥ 0)

/-- Method `find(Char needle, size_type pos)`. -/
def find_char (m : Mem) (s : basic_string_view) (needle pos : Nat) : Res Nat :=
  match substr s pos npos with
  | Res.ret haystack =>
    match Traits.find m haystack.data_ haystack.size_ needle with
    | none => Res.ret npos
    | some found => Res.ret (found - s.data_)
  | Res.out_of_range => Res.out_of_range
  | Res.out_of_fuel => Res.out_of_fuel

/-- The `while(true)` loop of `find(basic_string_view needle, size_type pos)`, on fuel. -/
def find_loop (m : Mem) (s needle : basic_string_view) (chars : Nat) : Nat → Nat → Res Nat
  | 0, _ => Res.out_of_fuel
  | fuel + 1, pos =>
    if pos ≥ s.size_ then Res.ret npos
    else
      match find_char m s (front m needle) pos with
      | Res.ret pick =>
        if pick = npos ∨ size_add pick chars > s.size_ then Res.ret npos
        else
          match substr s pick chars with
          | Res.ret sub =>
            if operator_eq m sub needle then Res.ret pick
            else find_loop m s needle chars fuel (size_add pick 1)
          | Res.out_of_range => Res.out_of_range
          | Res.out_of_fuel => Res.out_of_fuel
      | Res.out_of_range => Res.out_of_range
      | Res.out_of_fuel => Res.out_of_fuel

/-- Method `find(basic_string_view needle, size_type pos)`; `fuel` bounds the number of
iterations of its loop. -/
def find_view (fuel : Nat) (m : Mem) (s needle : basic_string_view) (pos : Nat) : Res Nat :=
  if pos ≥ s.size_ then Res.ret npos
  else if empty needle then Res.ret pos
  else
    let chars := needle.size_
    find_loop m s needle chars fuel pos

/-- The `for` loop of `rfind(Char needle, size_type pos)`: `ix` runs upwards while
`ix < pos`. -/
def rfind_char_loop (m : Mem) (s : basic_string_view) (needle pos : Nat) : Nat → Nat → Res Nat
  | 0, _ => Res.out_of_fuel
  | fuel + 1, ix =>
    if ix < pos then
      match «at» m s (pos - ix - 1) with
      | Res.ret c =>
        if Traits.eq c needle then Res.ret (pos - ix - 1)
        else rfind_char_loop m s needle pos fuel (ix + 1)
      | Res.out_of_range => Res.out_of_range
      | Res.out_of_fuel => Res.out_of_fuel
    else Res.ret npos

/-- Method `rfind(Char needle, size_type pos)`. The loop makes at most `pos` iterations
and one final test, which is the fuel it is given. -/
def rfind_char (m : Mem) (s : basic_string_view) (needle pos : Nat) : Res Nat :=
  let pos := min pos s.size_
  rfind_char_loop m s needle pos (pos + 1) 0

/-- The `while(true)` loop of `rfind(basic_string_view needle, size_type pos)`, on fuel. -/
def rfind_loop (m : Mem) (s needle : basic_string_view) (chars : Nat) : Nat → Nat → Res Nat
  | 0, _ => Res.out_of_fuel
  | fuel + 1, pos =>
    match rfind_char m s (front m needle) pos with
    | Res.ret pick =>
      if pick = npos then Res.ret npos
      else
        match substr s pick chars with
        | Res.ret sub =>
          if operator_eq m sub needle then Res.ret pick
          else if pick = 0 then Res.ret npos
          else rfind_loop m s needle chars fuel (pick - 1)
        | Res.out_of_range => Res.out_of_range
        | Res.out_of_fuel => Res.out_of_fuel
    | Res.out_of_range => Res.out_of_range
    | Res.out_of_fuel => Res.out_of_fuel

/-- Method `rfind(basic_string_view needle, size_type pos)`; `fuel` bounds the number of
iterations of its loop. -/
def rfind_view (fuel : Nat) (m : Mem) (s needle : basic_string_view) (pos : Nat) : Res Nat :=
  let pos := min pos s.size_
  if empty needle then Res.ret pos
  else
    let chars := needle.size_
    rfind_loop m s needle chars fuel pos

/-- The constructor `basic_string_view(const Char* str, size_t size)`. -/
def from_ptr_size (str size : Nat) : basic_string_view := ⟨str, size⟩

/-- The private helper `strlen(ch)`: `Traits::length(ch)`. -/
def strlen (fuel : Nat) (m : Mem) (ch : Nat) : Res Nat := Traits.length m fuel ch

/-- The constructor `basic_string_view(const Char* str)`; `fuel` bounds the length scan. -/
def from_cstr (fuel : Nat) (m : Mem) (str : Nat) : Res basic_string_view :=
  match strlen fuel m str with
  | Res.ret n => Res.ret ⟨str, n⟩
  | Res.out_of_range => Res.out_of_range
  | Res.out_of_fuel => Res.out_of_fuel

/-- Method `size()`. -/
def size (s : basic_string_view) : Nat := s.size_

/-- Method `remove_prefix(n)`: the outcome and the state of the view after the call. -/
def remove_prefix (s : basic_string_view) (n : Nat) : Res Unit × basic_string_view :=
  if n > s.size_ then (Res.out_of_range, s)
  else
    let s1 : basic_string_view := ⟨s.data_, s.size_ - n⟩
    let s2 : basic_string_view := ⟨s1.data_ + n, s1.size_⟩
    (Res.ret (), s2)

/-- Method `remove_suffix(n)`: the outcome and the state of the view after the call. -/
def remove_suffix (s : basic_string_view) (n : Nat) : Res Unit × basic_string_view :=
  if n > s.size_ then (Res.out_of_range, s)
  else
    let s1 : basic_string_view := ⟨s.data_, s.size_ - n⟩
    (Res.ret (), s1)

/-- Method `copy(dest, count, pos)`: the outcome and the memory after the call. -/
def copy (m : Mem) (s : basic_string_view) (dest count pos : Nat) : Res Nat × Mem :=
  if pos > s.size_ then (Res.out_of_range, m)
  else
    let rcount := min count (s.size_ - pos)
    let rdata := s.data_ + pos
    (Res.ret rcount, Traits.copy m dest rdata rcount)

/-- The `for` loop of `find_first_of(basic_string_view v, size_type pos)`: `ix` runs
upwards while `ix < size_`. -/
def find_first_of_loop (m : Mem) (s v : basic_string_view) : Nat → Nat → Res Nat
  | 0, _ => Res.out_of_fuel
  | fuel + 1, ix =>
    if ix < s.size_ then
      match find_char m v (index m s ix) 0 with
      | Res.ret r =>
        if r ≠ npos then Res.ret ix
        else find_first_of_loop m s v fuel (ix + 1)
      | Res.out_of_range => Res.out_of_range
      | Res.out_of_fuel => Res.out_of_fuel
    else Res.ret npos

/-- Method `find_first_of(basic_string_view v, size_type pos)`. The loop makes at most
`size_` iterations and one final test, which is the fuel it is given. -/
def find_first_of (m : Mem) (s v : basic_string_view) (pos : Nat) : Res Nat :=
  if pos > s.size_ then Res.ret npos
  else find_first_of_loop m s v (s.size_ + 1) pos

/-- The `for` loop of `find_last_of(basic_string_view v, size_type pos)`: `pos` runs
downwards while `pos < size_`, and `--pos` wraps below zero. -/
def find_last_of_loop (m : Mem) (s v : basic_string_view) : Nat → Nat → Res Nat
  | 0, _ => Res.out_of_fuel
  | fuel + 1, pos =>
    if pos < s.size_ then
      match find_char m v (index m s pos) 0 with
      | Res.ret r =>
        if r ≠ npos then Res.ret pos
        else find_last_of_loop m s v fuel (size_sub pos 1)
      | Res.out_of_range => Res.out_of_range
      | Res.out_of_fuel => Res.out_of_fuel
    else Res.ret npos

/-- Method `find_last_of(basic_string_view v, size_type pos)`; `size_ - 1` wraps for the
empty view. The loop makes at most `size_` iterations and one final test, which is the
fuel it is given. -/
def find_last_of (m : Mem) (s v : basic_string_view) (pos : Nat) : Res Nat :=
  let pos := min (size_sub s.size_ 1) pos
  find_last_of_loop m s v (s.size_ + 1) pos

/-- The `for` loop of `find_first_not_of(basic_string_view v, size_type pos)`. -/
def find_first_not_of_loop (m : Mem) (s v : basic_string_view) : Nat → Nat → Res Nat
  | 0, _ => Res.out_of_fuel
  | fuel + 1, ix =>
    if ix < s.size_ then
      match find_char m v (index m s ix) 0 with
      | Res.ret r =>
        if r = npos then Res.ret ix
        else find_first_not_of_loop m s v fuel (ix + 1)
      | Res.out_of_range => Res.out_of_range
      | Res.out_of_fuel => Res.out_of_fuel
    else Res.ret npos

/-- Method `find_first_not_of(basic_string_view v, size_type pos)`. The loop makes at
most `size_` iterations and one final test, which is the fuel it is given. -/
def find_first_not_of (m : Mem) (s v : basic_string_view) (pos : Nat) : Res Nat :=
  if pos > s.size_ then Res.ret npos
  else find_first_not_of_loop m s v (s.size_ + 1) pos

/-- The `for` loop of `find_last_not_of(basic_string_view v, size_type pos)`. -/
def find_last_not_of_loop (m : Mem) (s v : basic_string_view) : Nat → Nat → Res Nat
  | 0, _ => Res.out_of_fuel
  | fuel + 1, pos =>
    if pos < s.size_ then
      match find_char m v (index m s pos) 0 with
      | Res.ret r =>
        if r = npos then Res.ret pos
        else find_last_not_of_loop m s v fuel (size_sub pos 1)
      | Res.out_of_range => Res.out_of_range
      | Res.out_of_fuel => Res.out_of_fuel
    else Res.ret npos

/-- Method `find_last_not_of(basic_string_view v, size_type pos)`. The loop makes at
most `size_` iterations and one final test, which is the fuel it is given. -/
def find_last_not_of (m : Mem) (s v : basic_string_view) (pos : Nat) : Res Nat :=
  let pos := min (size_sub s.size_ 1) pos
  find_last_not_of_loop m s v (s.size_ + 1) pos

/-- Method `find_last_not_of(const Char* s, size_type pos)`; `fuel` bounds the length
scan of the constructor. -/
def find_last_not_of_cstr (fuel : Nat) (m : Mem) (s : basic_string_view) (str pos : Nat) :
    Res Nat :=
  match from_cstr fuel m str with
  | Res.ret v => find_last_not_of m s v pos
  | Res.out_of_range => Res.out_of_range
  | Res.out_of_fuel => Res.out_of_fuel

/-- Method `find_first_of(Char c, size_type pos)`: `find(c, pos)`. -/
def find_first_of_char (m : Mem) (s : basic_string_view) (c pos : Nat) : Res Nat :=
  find_char m s c pos

/-- Method `find_last_of(Char c, size_type pos)`: `rfind(c, pos)`. -/
def find_last_of_char (m : Mem) (s : basic_string_view) (c pos : Nat) : Res Nat :=
  rfind_char m s c pos

/-- The two data members of a view object. -/
inductive Field where
  | data_
  | size_
deriving DecidableEq, Repr

/-- A reference to a data member: the object it belongs to and the member. -/
structure Ref where
  obj : Nat
  field : Field
deriving DecidableEq, Repr

/-- The view objects of a program: the value of each data member. -/
abbrev Objects := Ref → Nat

/-- Assignment through a reference. -/
def assign (σ : Objects) (r : Ref) (x : Nat) : Objects :=
  fun r1 => if r1 = r then x else σ r1

/-- The view stored in object `o`. -/
def load (σ : Objects) (o : Nat) : basic_string_view :=
  ⟨σ ⟨o, Field.data_⟩, σ ⟨o, Field.size_⟩⟩

/-- The private helper `tswap(T& lhv, T& rhv)`. Its local `auto&& tmp = lhv` is
initialised from an lvalue, so `tmp` has type `T&` and names the same member as `lhv`;
the later read of `tmp` reads that member as it is then. -/
def tswap (σ : Objects) (lhv rhv : Ref) : Objects :=
  let tmp := lhv
  let σ1 := assign σ lhv (σ rhv)
  assign σ1 rhv (σ1 tmp)

/-- Method `swap(basic_string_view& other)` called on object `this`. -/
def swap (σ : Objects) (this other : Nat) : Objects :=
  let σ1 := tswap σ ⟨this, Field.size_⟩ ⟨other, Field.size_⟩
  tswap σ1 ⟨this, Field.data_⟩ ⟨other, Field.data_⟩

end basic_string_view

namespace fnv

/-- The constant `fnv<8>::base`. -/
def base : Nat := 1099511628211

/-- The constant `fnv<8>::offset`. -/
def offset : Nat := 14695981039346656037

end fnv

/-- The range-`for` of `std::hash<essentials::string_view>::operator()`: `it` runs over
the `n` units left before `end()`. `cast` is the conversion `size_t(c)` of a unit, which
depends on the signedness of `char`. -/
def hash_string_view_loop (cast : Nat → Nat) (m : Mem) : Nat → Nat → Nat → Nat
  | _, 0, hash => hash
  | it, n + 1, hash =>
    let c := m it
    let hash1 := (hash * fnv.base) % SIZE_MOD
    let hash2 := Nat.xor hash1 (cast c % SIZE_MOD)
    hash_string_view_loop cast m (it + 1) n hash2

/-- The call operator of `std::hash<essentials::string_view>` (FNV). -/
def hash_string_view (cast : Nat → Nat) (m : Mem) (sv : basic_string_view) : Nat :=
  hash_string_view_loop cast m sv.data_ sv.size_ fnv.offset

/-- The range-`for` of `std::hash<essentials::wstring_view>::operator()`. `cast` is the
conversion `(size_t)c` of a wide unit. -/
def hash_wstring_view_loop (cast : Nat → Nat) (m : Mem) : Nat → Nat → Nat → Nat
  | _, 0, hash => hash
  | it, n + 1, hash =>
    let c := m it
    hash_wstring_view_loop cast m (it + 1) n ((hash * 33 + cast c % SIZE_MOD) % SIZE_MOD)

/-- The call operator of `std::hash<essentials::wstring_view>` (djb2). -/
def hash_wstring_view (cast : Nat → Nat) (m : Mem) (sv : basic_string_view) : Nat :=
  hash_wstring_view_loop cast m sv.data_ sv.size_ 5381

/-- A memory holding the units `xs` at addresses `base, base + 1, ...` on top of `m`. -/
def store (m : Mem) (base : Nat) (xs : List Nat) : Mem :=
  fun a => if base ≤ a ∧ a < base + xs.length then xs.getD (a - base) 0 else m a

/-- The memory in which every unit is `0`. -/
def zero_mem : Mem := fun _ => 0

end essentials

namespace essentials

/-- The sample memory of the scenarios: `"Hello world"` at address 16, `"orld"` at 64,
`"aaaa"` at 80, `"aa"` at 96, `"aaa"` at 112 and `"abc"` at 128. -/
def sample_mem : Mem :=
  store (store (store (store (store (store zero_mem
    16 [72, 101, 108, 108, 111, 32, 119, 111, 114, 108, 100])
    64 [111, 114, 108, 100])
    80 [97, 97, 97, 97])
    96 [97, 97])
    112 [97, 97, 97])
    128 [97, 98, 99]

namespace basic_string_view

/-- The needle `n` occurs in `s` at index `i`: it fits inside `s` from `i` on and every
unit matches. -/
def occurs_at (m : Mem) (s n : basic_string_view) (i : Nat) : Prop :=
  i + n.size_ ≤ s.size_ ∧ ∀ k, k < n.size_ → m (s.data_ + (i + k)) = m (n.data_ + k)

instance (m : Mem) (s n : basic_string_view) (i : Nat) : Decidable (occurs_at m s n i) := by
  unfold occurs_at; infer_instance

/-- The unit `c` occurs in the set view `v`. -/
def mem_of (m : Mem) (v : basic_string_view) (c : Nat) : Prop :=
  ∃ k, k < v.size_ ∧ m (v.data_ + k) = c

instance (m : Mem) (v : basic_string_view) (c : Nat) : Decidable (mem_of m v c) := by
  unfold mem_of; infer_instance

/-- Upward scan for the first index in `[ix, size)` that satisfies `P`, with the loop
shape of the `find_first_*` methods. -/
def scan_up (P : Nat → Bool) (size : Nat) : Nat → Nat → Res Nat
  | 0, _ => Res.out_of_fuel
  | fuel + 1, ix =>
    if ix < size then
      if P ix then Res.ret ix else scan_up P size fuel (ix + 1)
    else Res.ret npos

/-- Downward scan from `pos` for the last index that satisfies `P`, with the loop shape
of the `find_last_*` methods. -/
def scan_down (P : Nat → Bool) (size : Nat) : Nat → Nat → Res Nat
  | 0, _ => Res.out_of_fuel
  | fuel + 1, pos =>
    if pos < size then
      if P pos then Res.ret pos else scan_down P size fuel (size_sub pos 1)
    else Res.ret npos

/-- One step of the FNV fold: multiply by the prime, then fold the unit in by
exclusive-or, in `size_t`. -/
def fnv_step (cast : Nat → Nat) (h c : Nat) : Nat :=
  Nat.xor ((h * fnv.base) % SIZE_MOD) (cast c % SIZE_MOD)

/-- One step of the djb2 fold: `h * 33 + unit`, in `size_t`. -/
def djb2_step (cast : Nat → Nat) (h c : Nat) : Nat :=
  (h * 33 + cast c % SIZE_MOD) % SIZE_MOD

end basic_string_view

/-- The sample memory with the null-terminated set `"dlrow "` added at address 144 and
the set `"lo"` at address 160. -/
def sample_mem_sets : Mem :=
  store (store sample_mem 144 [100, 108, 114, 111, 119, 32]) 160 [108, 111]

namespace basic_string_view

/-! Arithmetic of the embedding -/

theorem min_eq_nat_min (a b : Nat) : min a b = Nat.min a b := by
  unfold min
  split
  · rename_i h; exact (Nat.min_eq_left (Nat.le_of_lt h)).symm
  · rename_i h; exact (Nat.min_eq_right (Nat.le_of_not_lt h)).symm

theorem min_same (a : Nat) : min a a = a := by
  unfold min
  split <;> rfl

theorem min_npos (x : Nat) (h : x < SIZE_MOD) : min npos x = x := by
  unfold min npos SIZE_MOD at *
  split <;> omega

theorem size_sub_self (a : Nat) : size_sub a a = 0 := by
  unfold size_sub
  have h : a % SIZE_MOD < SIZE_MOD := Nat.mod_lt _ (by unfold SIZE_MOD; omega)
  have h2 : a % SIZE_MOD + SIZE_MOD - a % SIZE_MOD = SIZE_MOD := by omega
  rw [h2, Nat.mod_self]

theorem to_int_zero : to_int 0 = 0 := by decide

/-! Slicing -/

theorem units_length (m : Mem) (s : basic_string_view) : (units m s).length = s.size_ := by
  simp [units]

theorem units_getElem (m : Mem) (s : basic_string_view) (i : Nat) (h : i < (units m s).length) :
    (units m s)[i] = m (s.data_ + i) := by
  simp [units]

theorem units_slice (m : Mem) (d n pos count : Nat) :
    units m ⟨d + pos, Nat.min count (n - pos)⟩ = ((units m ⟨d, n⟩).drop pos).take count := by
  apply List.ext_getElem
  · simp [units]
  · intro i h1 h2
    simp [units, List.getElem_take, List.getElem_drop, Nat.add_assoc]

/-! Comparison -/

theorem traits_compare_eq_zero_iff (m : Mem) (n : Nat) : ∀ p q : Nat,
    Traits.compare m p q n = 0 ↔ ∀ i, i < n → m (p + i) = m (q + i) := by
  induction n with
  | zero => intro p q; simp [Traits.compare]
  | succ n ih =>
    intro p q
    unfold Traits.compare
    by_cases h1 : m p < m q
    · rw [if_pos h1]
      constructor
      · intro h; cases h
      · intro h
        have := h 0 (Nat.succ_pos n)
        simp at this
        omega
    · rw [if_neg h1]
      by_cases h2 : m q < m p
      · rw [if_pos h2]
        constructor
        · intro h; cases h
        · intro h
          have := h 0 (Nat.succ_pos n)
          simp at this
          omega
      · rw [if_neg h2, ih (p + 1) (q + 1)]
        have h0 : m p = m q := by omega
        constructor
        · intro h i hi
          cases i with
          | zero => simpa using h0
          | succ j =>
            have := h j (by omega)
            have e1 : p + (j + 1) = p + 1 + j := by omega
            have e2 : q + (j + 1) = q + 1 + j := by omega
            rw [e1, e2]; exact this
        · intro h i hi
          have := h (i + 1) (by omega)
          have e1 : p + (i + 1) = p + 1 + i := by omega
          have e2 : q + (i + 1) = q + 1 + i := by omega
          rw [e1, e2] at this; exact this

theorem operator_eq_iff (m : Mem) (a b : basic_string_view) :
    operator_eq m a b = true ↔
      a.size_ = b.size_ ∧ ∀ i, i < a.size_ → m (a.data_ + i) = m (b.data_ + i) := by
  unfold operator_eq
  rw [Bool.and_eq_true, decide_eq_true_iff, decide_eq_true_iff]
  constructor
  · rintro ⟨hs, hc⟩
    refine ⟨hs, ?_⟩
    unfold compare at hc
    by_cases h : Traits.compare m a.data_ b.data_ (min a.size_ b.size_) = 0
    · rw [traits_compare_eq_zero_iff] at h
      rw [← hs, min_same] at h
      exact h
    · simp only [ne_eq, h, not_false_eq_true, if_true] at hc
  · rintro ⟨hs, hc⟩
    refine ⟨hs, ?_⟩
    unfold compare
    have h : Traits.compare m a.data_ b.data_ (min a.size_ b.size_) = 0 := by
      rw [traits_compare_eq_zero_iff, ← hs, min_same]
      exact hc
    simp only [h, ne_eq, not_true_eq_false, if_false]
    rw [hs, size_sub_self, to_int_zero]

theorem units_eq_iff (m : Mem) (a b : basic_string_view) :
    units m a = units m b ↔
      a.size_ = b.size_ ∧ ∀ i, i < a.size_ → m (a.data_ + i) = m (b.data_ + i) := by
  constructor
  · intro h
    have hl : a.size_ = b.size_ := by
      have := congrArg List.length h
      simpa [units_length] using this
    refine ⟨hl, ?_⟩
    intro i hi
    have h1 : i < (units m a).length := by rw [units_length]; exact hi
    have h2 : i < (units m b).length := by rw [units_length, ← hl]; exact hi
    have e : (units m a)[i] = (units m b)[i] := by simp only [h]
    rw [units_getElem, units_getElem] at e
    exact e
  · rintro ⟨hl, hc⟩
    apply List.ext_getElem
    · rw [units_length, units_length, hl]
    · intro i h1 h2
      rw [units_getElem, units_getElem]
      exact hc i (by rw [units_length] at h1; exact h1)

theorem traits_compare_neg (m : Mem) (n : Nat) : ∀ p q i : Nat, i < n →
    (∀ j, j < i → m (p + j) = m (q + j)) → m (p + i) < m (q + i) →
    Traits.compare m p q n < 0 := by
  induction n with
  | zero => intro p q i hi; exact absurd hi (Nat.not_lt_zero i)
  | succ n ih =>
    intro p q i hi hpre hlt
    unfold Traits.compare
    cases i with
    | zero =>
      have h0 : m p < m q := by simpa using hlt
      rw [if_pos h0]
      decide
    | succ k =>
      have h0 : m p = m q := by simpa using hpre 0 (Nat.succ_pos k)
      rw [if_neg (by omega), if_neg (by omega)]
      apply ih (p + 1) (q + 1) k (by omega)
      · intro j hj
        have := hpre (j + 1) (by omega)
        have e1 : p + (j + 1) = p + 1 + j := by omega
        have e2 : q + (j + 1) = q + 1 + j := by omega
        rw [e1, e2] at this; exact this
      · have e1 : p + (k + 1) = p + 1 + k := by omega
        have e2 : q + (k + 1) = q + 1 + k := by omega
        rw [e1, e2] at hlt; exact hlt

theorem traits_compare_pos (m : Mem) (n : Nat) : ∀ p q i : Nat, i < n →
    (∀ j, j < i → m (p + j) = m (q + j)) → m (q + i) < m (p + i) →
    Traits.compare m p q n > 0 := by
  induction n with
  | zero => intro p q i hi; exact absurd hi (Nat.not_lt_zero i)
  | succ n ih =>
    intro p q i hi hpre hlt
    unfold Traits.compare
    cases i with
    | zero =>
      have h0 : m q < m p := by simpa using hlt
      rw [if_neg (by omega), if_pos h0]
      decide
    | succ k =>
      have h0 : m p = m q := by simpa using hpre 0 (Nat.succ_pos k)
      rw [if_neg (by omega), if_neg (by omega)]
      apply ih (p + 1) (q + 1) k (by omega)
      · intro j hj
        have := hpre (j + 1) (by omega)
        have e1 : p + (j + 1) = p + 1 + j := by omega
        have e2 : q + (j + 1) = q + 1 + j := by omega
        rw [e1, e2] at this; exact this
      · have e1 : p + (k + 1) = p + 1 + k := by omega
        have e2 : q + (k + 1) = q + 1 + k := by omega
        rw [e1, e2] at hlt; exact hlt

theorem to_int_size_sub_small (a b : Nat) (ha : a < INT_MOD / 2) (hb : b < INT_MOD / 2) :
    to_int (size_sub a b) = (a : Int) - (b : Int) := by
  unfold to_int size_sub
  unfold INT_MOD at *
  unfold SIZE_MOD
  split <;> omega

/-- What `compare` computes when both lengths are below two to the power 31: the order
of the units at the first index where the two views differ inside their common prefix,
and, when the common prefix is equal, the difference of the lengths. -/
theorem compare_of_small (m : Mem) (a b : basic_string_view)
    (ha : a.size_ < INT_MOD / 2) (hb : b.size_ < INT_MOD / 2) :
    (∀ i, i < a.size_ → i < b.size_ →
      (∀ j, j < i → m (a.data_ + j) = m (b.data_ + j)) →
      m (a.data_ + i) < m (b.data_ + i) → compare m a b < 0) ∧
    (∀ i, i < a.size_ → i < b.size_ →
      (∀ j, j < i → m (a.data_ + j) = m (b.data_ + j)) →
      m (b.data_ + i) < m (a.data_ + i) → compare m a b > 0) ∧
    ((∀ j, j < a.size_ → j < b.size_ → m (a.data_ + j) = m (b.data_ + j)) →
      compare m a b = (a.size_ : Int) - (b.size_ : Int)) := by
  have hmin : ∀ i, i < a.size_ → i < b.size_ → i < min a.size_ b.size_ := by
    intro i h1 h2
    unfold min
    split <;> omega
  refine ⟨?_, ?_, ?_⟩
  · intro i h1 h2 hpre hlt
    have hc := traits_compare_neg m _ a.data_ b.data_ i (hmin i h1 h2) hpre hlt
    unfold compare
    simp only [ne_eq, Int.ne_of_lt hc, not_false_eq_true, if_true]
    exact hc
  · intro i h1 h2 hpre hlt
    have hc := traits_compare_pos m _ a.data_ b.data_ i (hmin i h1 h2) hpre hlt
    unfold compare
    simp only [ne_eq, Int.ne_of_gt hc, not_false_eq_true, if_true]
    exact hc
  · intro hpre
    have hc : Traits.compare m a.data_ b.data_ (min a.size_ b.size_) = 0 := by
      rw [traits_compare_eq_zero_iff]
      intro i hi
      unfold min at hi
      split at hi
      · exact hpre i hi (by omega)
      · exact hpre i (by omega) hi
    unfold compare
    simp only [hc, ne_eq, not_true_eq_false, if_false]
    exact to_int_size_sub_small _ _ ha hb

/-- When both lengths are below two to the power 31, `operator==` agrees with
`compare(...) == 0`. -/
theorem operator_eq_iff_compare_of_small (m : Mem) (a b : basic_string_view)
    (ha : a.size_ < INT_MOD / 2) (hb : b.size_ < INT_MOD / 2) :
    operator_eq m a b = true ↔ compare m a b = 0 := by
  unfold operator_eq
  rw [Bool.and_eq_true, decide_eq_true_iff, decide_eq_true_iff]
  constructor
  · exact fun h => h.2
  · intro h
    refine ⟨?_, h⟩
    unfold compare at h
    by_cases hc : Traits.compare m a.data_ b.data_ (min a.size_ b.size_) = 0
    · simp only [hc, ne_eq, not_true_eq_false, if_false] at h
      rw [to_int_size_sub_small _ _ ha hb] at h
      omega
    · simp only [ne_eq, hc, not_false_eq_true, if_true] at h

/-! Forward search -/

theorem traits_find_none (m : Mem) (ch : Nat) (n : Nat) : ∀ p : Nat,
    Traits.find m p n ch = none → ∀ i, i < n → m (p + i) ≠ ch := by
  induction n with
  | zero => intro p _ i hi; exact absurd hi (Nat.not_lt_zero i)
  | succ n ih =>
    intro p h i hi
    unfold Traits.find at h
    by_cases h0 : m p = ch
    · rw [if_pos h0] at h; cases h
    · rw [if_neg h0] at h
      cases i with
      | zero => simpa using h0
      | succ j =>
        have := ih (p + 1) h j (by omega)
        have e : p + (j + 1) = p + 1 + j := by omega
        rw [e]; exact this

theorem traits_find_some (m : Mem) (ch : Nat) (n : Nat) : ∀ p q : Nat,
    Traits.find m p n ch = some q →
      ∃ i, i < n ∧ q = p + i ∧ m (p + i) = ch ∧ ∀ j, j < i → m (p + j) ≠ ch := by
  induction n with
  | zero => intro p q h; unfold Traits.find at h; cases h
  | succ n ih =>
    intro p q h
    unfold Traits.find at h
    by_cases h0 : m p = ch
    · rw [if_pos h0] at h
      cases h
      exact ⟨0, Nat.succ_pos n, rfl, by simpa using h0, fun j hj => absurd hj (Nat.not_lt_zero j)⟩
    · rw [if_neg h0] at h
      obtain ⟨i, hi, hq, hm, hl⟩ := ih (p + 1) q h
      refine ⟨i + 1, by omega, by omega, ?_, ?_⟩
      · have e : p + (i + 1) = p + 1 + i := by omega
        rw [e]; exact hm
      · intro j hj
        cases j with
        | zero => simpa using h0
        | succ k =>
          have := hl k (by omega)
          have e : p + (k + 1) = p + 1 + k := by omega
          rw [e]; exact this

/-- Outcome of `find(Char, pos)` for a start inside the view: it returns, and the result
is either `npos` with no matching unit from `pos` on, or the least matching index. -/
theorem find_char_spec (m : Mem) (s : basic_string_view) (c pos : Nat)
    (hs : s.size_ < SIZE_MOD) (hpos : pos ≤ s.size_) :
    (find_char m s c pos = Res.ret npos ∧
      ∀ i, pos ≤ i → i < s.size_ → m (s.data_ + i) ≠ c) ∨
    (∃ r, find_char m s c pos = Res.ret r ∧ pos ≤ r ∧ r < s.size_ ∧
      m (s.data_ + r) = c ∧ ∀ i, pos ≤ i → i < r → m (s.data_ + i) ≠ c) := by
  have hsub : substr s pos npos = Res.ret ⟨s.data_ + pos, s.size_ - pos⟩ := by
    unfold substr
    rw [if_neg (Nat.not_lt.mpr hpos), min_npos _ (by omega)]
  have hfc : find_char m s c pos =
      match Traits.find m (s.data_ + pos) (s.size_ - pos) c with
      | none => Res.ret npos
      | some found => Res.ret (found - s.data_) := by
    unfold find_char
    rw [hsub]
  rw [hfc]
  cases hf : Traits.find m (s.data_ + pos) (s.size_ - pos) c with
  | none =>
    left
    refine ⟨rfl, ?_⟩
    intro i h1 h2
    have := traits_find_none m c _ _ hf (i - pos) (by omega)
    have e : s.data_ + pos + (i - pos) = s.data_ + i := by omega
    rw [e] at this; exact this
  | some q =>
    right
    obtain ⟨i, hi, hq, hm, hl⟩ := traits_find_some m c _ _ q hf
    refine ⟨pos + i, ?_, by omega, by omega, ?_, ?_⟩
    · show Res.ret (q - s.data_) = Res.ret (pos + i)
      congr 1
      omega
    · have e : s.data_ + (pos + i) = s.data_ + pos + i := by omega
      rw [e]; exact hm
    · intro j h1 h2
      have := hl (j - pos) (by omega)
      have e : s.data_ + pos + (j - pos) = s.data_ + j := by omega
      rw [e] at this; exact this

theorem occurs_at_front (m : Mem) (s n : basic_string_view) (i : Nat)
    (hn : n.size_ ≠ 0) (h : occurs_at m s n i) :
    i < s.size_ ∧ m (s.data_ + i) = front m n := by
  obtain ⟨h1, h2⟩ := h
  refine ⟨by omega, ?_⟩
  have := h2 0 (Nat.pos_of_ne_zero hn)
  simpa [front] using this

/-- The content test `substr(pick, chars) == needle` decides whether the needle occurs
at `pick`. -/
theorem substr_eq_needle_iff (m : Mem) (s n : basic_string_view) (pick : Nat) :
    operator_eq m ⟨s.data_ + pick, min n.size_ (s.size_ - pick)⟩ n = true ↔
      n.size_ ≤ s.size_ - pick ∧
        ∀ k, k < n.size_ → m (s.data_ + (pick + k)) = m (n.data_ + k) := by
  rw [operator_eq_iff]
  show min n.size_ (s.size_ - pick) = n.size_ ∧
      (∀ i, i < min n.size_ (s.size_ - pick) → m (s.data_ + pick + i) = m (n.data_ + i)) ↔ _
  constructor
  · rintro ⟨h1, h2⟩
    rw [h1] at h2
    refine ⟨?_, ?_⟩
    · unfold min at h1
      split at h1 <;> omega
    · intro k hk
      rw [← Nat.add_assoc]
      exact h2 k hk
  · rintro ⟨h1, h2⟩
    have e : min n.size_ (s.size_ - pick) = n.size_ := by
      rw [min_eq_nat_min]; exact Nat.min_eq_left h1
    rw [e]
    refine ⟨rfl, ?_⟩
    intro k hk
    rw [Nat.add_assoc]
    exact h2 k hk

theorem find_loop_spec (m : Mem) (s needle : basic_string_view)
    (hs : s.size_ < SIZE_MOD) (hn : needle.size_ ≠ 0) :
    ∀ fuel pos : Nat, s.size_ ≤ pos + fuel →
      ∃ r, find_loop m s needle needle.size_ (fuel + 1) pos = Res.ret r ∧
        ((r = npos ∧ ∀ i, pos ≤ i → ¬ occurs_at m s needle i) ∨
         (r < s.size_ ∧ pos ≤ r ∧ occurs_at m s needle r ∧
            ∀ i, pos ≤ i → i < r → ¬ occurs_at m s needle i)) := by
  have hend : ∀ pos : Nat, pos ≥ s.size_ → ∀ fuel : Nat,
      ∃ r, find_loop m s needle needle.size_ (fuel + 1) pos = Res.ret r ∧
        ((r = npos ∧ ∀ i, pos ≤ i → ¬ occurs_at m s needle i) ∨
         (r < s.size_ ∧ pos ≤ r ∧ occurs_at m s needle r ∧
            ∀ i, pos ≤ i → i < r → ¬ occurs_at m s needle i)) := by
    intro pos hge fuel
    refine ⟨npos, ?_, Or.inl ⟨rfl, ?_⟩⟩
    · unfold find_loop
      rw [if_pos hge]
    · intro i hi hocc
      have := (occurs_at_front m s needle i hn hocc).1
      omega
  intro fuel
  induction fuel with
  | zero =>
    intro pos h
    exact hend pos (by omega) 0
  | succ fuel ih =>
    intro pos h
    by_cases hge : pos ≥ s.size_
    · exact hend pos hge (fuel + 1)
    · have hstep : find_loop m s needle needle.size_ (fuel + 1 + 1) pos =
          match find_char m s (front m needle) pos with
          | Res.ret pick =>
            if pick = npos ∨ size_add pick needle.size_ > s.size_ then Res.ret npos
            else
              match substr s pick needle.size_ with
              | Res.ret sub =>
                if operator_eq m sub needle then Res.ret pick
                else find_loop m s needle needle.size_ (fuel + 1) (size_add pick 1)
              | Res.out_of_range => Res.out_of_range
              | Res.out_of_fuel => Res.out_of_fuel
          | Res.out_of_range => Res.out_of_range
          | Res.out_of_fuel => Res.out_of_fuel := by
        conv => lhs; unfold find_loop
        rw [if_neg hge]
      rw [hstep]
      rcases find_char_spec m s (front m needle) pos hs (by omega) with
        ⟨hfc, hno⟩ | ⟨pick, hfc, h1, h2, h3, h4⟩
      · rw [hfc]
        refine ⟨npos, ?_, Or.inl ⟨rfl, ?_⟩⟩
        · simp
        · intro i hi hocc
          obtain ⟨hlt, hfr⟩ := occurs_at_front m s needle i hn hocc
          exact hno i hi hlt hfr
      · rw [hfc]
        have hbefore : ∀ i, pos ≤ i → i < pick → ¬ occurs_at m s needle i := by
          intro i hi1 hi2 hocc
          exact h4 i hi1 hi2 (occurs_at_front m s needle i hn hocc).2
        have hpn : pick ≠ npos := by unfold npos; omega
        have hsub : substr s pick needle.size_ =
            Res.ret ⟨s.data_ + pick, min needle.size_ (s.size_ - pick)⟩ := by
          unfold substr
          rw [if_neg (by omega)]
        by_cases hov : size_add pick needle.size_ > s.size_
        · refine ⟨npos, ?_, Or.inl ⟨rfl, ?_⟩⟩
          · simp [hov]
          · intro i hi hocc
            by_cases hip : i < pick
            · exact hbefore i hi hip hocc
            · have hle : size_add pick needle.size_ ≤ pick + needle.size_ := by
                unfold size_add; exact Nat.mod_le _ _
              have := hocc.1
              omega
        · by_cases heq : operator_eq m ⟨s.data_ + pick, min needle.size_ (s.size_ - pick)⟩
              needle = true
          · refine ⟨pick, ?_, Or.inr ⟨h2, h1, ?_, hbefore⟩⟩
            · simp [hov, hpn, hsub, heq]
            · rw [substr_eq_needle_iff] at heq
              exact ⟨by omega, heq.2⟩
          · have hnot : ¬ occurs_at m s needle pick := by
              intro hocc
              apply heq
              rw [substr_eq_needle_iff]
              exact ⟨by have := hocc.1; omega, hocc.2⟩
            have hadd : size_add pick 1 = pick + 1 := by
              unfold size_add; exact Nat.mod_eq_of_lt (by omega)
            obtain ⟨r, hr, hspec⟩ := ih (pick + 1) (by omega)
            refine ⟨r, ?_, ?_⟩
            · simp [hov, hpn, hsub, heq, hadd, hr]
            · have hupto : ∀ i, pos ≤ i → i < pick + 1 → ¬ occurs_at m s needle i := by
                intro i hi1 hi2
                by_cases hip : i < pick
                · exact hbefore i hi1 hip
                · have : i = pick := by omega
                  rw [this]; exact hnot
              rcases hspec with ⟨e, hnone⟩ | ⟨hr1, hr2, hr3, hr4⟩
              · left
                refine ⟨e, ?_⟩
                intro i hi
                by_cases hip : i < pick + 1
                · exact hupto i hi hip
                · exact hnone i (by omega)
              · right
                refine ⟨hr1, by omega, hr3, ?_⟩
                intro i hi1 hi2
                by_cases hip : i < pick + 1
                · exact hupto i hi1 hip
                · exact hr4 i (by omega) hi2

/-! Character-set scans -/

/-- The membership test `v.find(c) != npos` of the character-set scans: the call
returns, and its result differs from `npos` exactly when `c` occurs in `v`. -/
theorem find_char_mem (m : Mem) (v : basic_string_view) (c : Nat) (hv : v.size_ < SIZE_MOD) :
    ∃ r, find_char m v c 0 = Res.ret r ∧ (r ≠ npos ↔ mem_of m v c) := by
  rcases find_char_spec m v c 0 hv (Nat.zero_le _) with ⟨hr, hno⟩ | ⟨r, hr, _, h2, h3, _⟩
  · refine ⟨npos, hr, ?_⟩
    constructor
    · intro h; exact absurd rfl h
    · rintro ⟨k, hk, hm⟩
      exact absurd hm (hno k (Nat.zero_le _) hk)
  · refine ⟨r, hr, ?_⟩
    constructor
    · intro _; exact ⟨r, h2, h3⟩
    · intro _; unfold npos; omega

theorem find_first_of_loop_eq (m : Mem) (s v : basic_string_view) (hv : v.size_ < SIZE_MOD) :
    ∀ fuel ix : Nat, find_first_of_loop m s v fuel ix =
      scan_up (fun i => decide (mem_of m v (index m s i))) s.size_ fuel ix := by
  intro fuel
  induction fuel with
  | zero => intro ix; rfl
  | succ fuel ih =>
    intro ix
    unfold find_first_of_loop scan_up
    by_cases hlt : ix < s.size_
    · rw [if_pos hlt, if_pos hlt]
      obtain ⟨r, hr, hiff⟩ := find_char_mem m v (index m s ix) hv
      rw [hr]
      by_cases hm : mem_of m v (index m s ix)
      · have hne : r ≠ npos := hiff.mpr hm
        simp [hne, hm]
      · have hne : ¬ r ≠ npos := fun h => hm (hiff.mp h)
        simp only [hne, if_false, hm, decide_False, Bool.false_eq_true]
        exact ih (ix + 1)
    · rw [if_neg hlt, if_neg hlt]

theorem find_first_not_of_loop_eq (m : Mem) (s v : basic_string_view)
    (hv : v.size_ < SIZE_MOD) :
    ∀ fuel ix : Nat, find_first_not_of_loop m s v fuel ix =
      scan_up (fun i => decide (¬ mem_of m v (index m s i))) s.size_ fuel ix := by
  intro fuel
  induction fuel with
  | zero => intro ix; rfl
  | succ fuel ih =>
    intro ix
    unfold find_first_not_of_loop scan_up
    by_cases hlt : ix < s.size_
    · rw [if_pos hlt, if_pos hlt]
      obtain ⟨r, hr, hiff⟩ := find_char_mem m v (index m s ix) hv
      rw [hr]
      by_cases hm : mem_of m v (index m s ix)
      · have hne : r ≠ npos := hiff.mpr hm
        simp only [hne, if_false, hm, not_true_eq_false, decide_False, Bool.false_eq_true]
        exact ih (ix + 1)
      · have hne : r = npos := by
          by_contra h
          exact hm (hiff.mp h)
        simp [hne, hm]
    · rw [if_neg hlt, if_neg hlt]

theorem find_last_of_loop_eq (m : Mem) (s v : basic_string_view) (hv : v.size_ < SIZE_MOD) :
    ∀ fuel pos : Nat, find_last_of_loop m s v fuel pos =
      scan_down (fun i => decide (mem_of m v (index m s i))) s.size_ fuel pos := by
  intro fuel
  induction fuel with
  | zero => intro pos; rfl
  | succ fuel ih =>
    intro pos
    unfold find_last_of_loop scan_down
    by_cases hlt : pos < s.size_
    · rw [if_pos hlt, if_pos hlt]
      obtain ⟨r, hr, hiff⟩ := find_char_mem m v (index m s pos) hv
      rw [hr]
      by_cases hm : mem_of m v (index m s pos)
      · have hne : r ≠ npos := hiff.mpr hm
        simp [hne, hm]
      · have hne : ¬ r ≠ npos := fun h => hm (hiff.mp h)
        simp only [hne, if_false, hm, decide_False, Bool.false_eq_true]
        exact ih (size_sub pos 1)
    · rw [if_neg hlt, if_neg hlt]

theorem find_last_not_of_loop_eq (m : Mem) (s v : basic_string_view)
    (hv : v.size_ < SIZE_MOD) :
    ∀ fuel pos : Nat, find_last_not_of_loop m s v fuel pos =
      scan_down (fun i => decide (¬ mem_of m v (index m s i))) s.size_ fuel pos := by
  intro fuel
  induction fuel with
  | zero => intro pos; rfl
  | succ fuel ih =>
    intro pos
    unfold find_last_not_of_loop scan_down
    by_cases hlt : pos < s.size_
    · rw [if_pos hlt, if_pos hlt]
      obtain ⟨r, hr, hiff⟩ := find_char_mem m v (index m s pos) hv
      rw [hr]
      by_cases hm : mem_of m v (index m s pos)
      · have hne : r ≠ npos := hiff.mpr hm
        simp only [hne, if_false, hm, not_true_eq_false, decide_False, Bool.false_eq_true]
        exact ih (size_sub pos 1)
      · have hne : r = npos := by
          by_contra h
          exact hm (hiff.mp h)
        simp [hne, hm]
    · rw [if_neg hlt, if_neg hlt]

theorem scan_up_spec (P : Nat → Bool) (size : Nat) :
    ∀ fuel ix : Nat, size ≤ ix + fuel →
      ∃ r, scan_up P size (fuel + 1) ix = Res.ret r ∧
        ((r = npos ∧ ∀ i, ix ≤ i → i < size → P i = false) ∨
         (ix ≤ r ∧ r < size ∧ P r = true ∧ ∀ i, ix ≤ i → i < r → P i = false)) := by
  intro fuel
  induction fuel with
  | zero =>
    intro ix h
    refine ⟨npos, ?_, Or.inl ⟨rfl, fun i h1 h2 => by omega⟩⟩
    unfold scan_up
    rw [if_neg (by omega)]
  | succ fuel ih =>
    intro ix h
    unfold scan_up
    by_cases hlt : ix < size
    · rw [if_pos hlt]
      by_cases hp : P ix = true
      · rw [if_pos hp]
        exact ⟨ix, rfl, Or.inr ⟨Nat.le_refl _, hlt, hp, fun i h1 h2 => by omega⟩⟩
      · rw [if_neg hp]
        have hpf : P ix = false := by simpa using hp
        obtain ⟨r, hr, hspec⟩ := ih (ix + 1) (by omega)
        refine ⟨r, hr, ?_⟩
        rcases hspec with ⟨e, hnone⟩ | ⟨h1, h2, h3, h4⟩
        · left
          refine ⟨e, ?_⟩
          intro i hi1 hi2
          by_cases hi : i = ix
          · rw [hi]; exact hpf
          · exact hnone i (by omega) hi2
        · right
          refine ⟨by omega, h2, h3, ?_⟩
          intro i hi1 hi2
          by_cases hi : i = ix
          · rw [hi]; exact hpf
          · exact h4 i (by omega) hi2
    · rw [if_neg hlt]
      exact ⟨npos, rfl, Or.inl ⟨rfl, fun i h1 h2 => by omega⟩⟩

theorem size_sub_one (pos : Nat) (h0 : 0 < pos) (h1 : pos < SIZE_MOD) :
    size_sub pos 1 = pos - 1 := by
  unfold size_sub
  unfold SIZE_MOD at *
  omega

theorem size_sub_zero_one : size_sub 0 1 = npos := by decide

theorem scan_down_spec (P : Nat → Bool) (size : Nat) (hs : size < SIZE_MOD) :
    ∀ fuel pos : Nat, pos < size → pos < fuel →
      ∃ r, scan_down P size (fuel + 1) pos = Res.ret r ∧
        ((r = npos ∧ ∀ i, i ≤ pos → P i = false) ∨
         (r ≤ pos ∧ P r = true ∧ ∀ i, r < i → i ≤ pos → P i = false)) := by
  intro fuel
  induction fuel with
  | zero => intro pos _ h; exact absurd h (Nat.not_lt_zero pos)
  | succ fuel ih =>
    intro pos hlt hf
    unfold scan_down
    rw [if_pos hlt]
    by_cases hp : P pos = true
    · rw [if_pos hp]
      exact ⟨pos, rfl, Or.inr ⟨Nat.le_refl _, hp, fun i h1 h2 => by omega⟩⟩
    · rw [if_neg hp]
      have hpf : P pos = false := by simpa using hp
      by_cases h0 : pos = 0
      · refine ⟨npos, ?_, Or.inl ⟨rfl, ?_⟩⟩
        · rw [h0, size_sub_zero_one]
          unfold scan_down
          rw [if_neg (by unfold npos; omega)]
        · intro i hi
          have : i = pos := by omega
          rw [this]; exact hpf
      · rw [size_sub_one pos (by omega) (by omega)]
        obtain ⟨r, hr, hspec⟩ := ih (pos - 1) (by omega) (by omega)
        refine ⟨r, hr, ?_⟩
        rcases hspec with ⟨e, hnone⟩ | ⟨h1, h2, h3⟩
        · left
          refine ⟨e, ?_⟩
          intro i hi
          by_cases hi2 : i = pos
          · rw [hi2]; exact hpf
          · exact hnone i (by omega)
        · right
          refine ⟨by omega, h2, ?_⟩
          intro i hi1 hi2
          by_cases hi3 : i = pos
          · rw [hi3]; exact hpf
          · exact h3 i hi1 (by omega)

/-- The clamped start of the backward scans: for a non-empty view `min(size_ - 1, pos)`
is the smaller of the last index and `pos`. -/
theorem last_scan_start (size pos : Nat) (h0 : 0 < size) (hs : size < SIZE_MOD) :
    min (size_sub size 1) pos < size ∧ min (size_sub size 1) pos ≤ pos ∧
    (∀ i, i < size → i ≤ pos → i ≤ min (size_sub size 1) pos) := by
  rw [size_sub_one size h0 hs]
  unfold min
  split
  · refine ⟨by omega, by omega, fun i h1 h2 => by omega⟩
  · refine ⟨by omega, by omega, fun i h1 h2 => by omega⟩

/-- The backward scan on the empty view stops at its first test. -/
theorem scan_down_empty (P : Nat → Bool) (fuel pos : Nat) :
    scan_down P 0 (fuel + 1) pos = Res.ret npos := by
  unfold scan_down
  rw [if_neg (Nat.not_lt_zero pos)]

/-- Outcome of an upward scan from `pos`, for a predicate `Q`: the scan returns the least
index in `[pos, size)` that satisfies `Q`, and `npos` exactly when there is none. -/
theorem scan_up_outcome (Q : Nat → Prop) [DecidablePred Q] (size pos : Nat)
    (hs : size < SIZE_MOD) :
    ∃ r, scan_up (fun i => decide (Q i)) size (size + 1) pos = Res.ret r ∧
      (r = npos ↔ ¬ ∃ i, pos ≤ i ∧ i < size ∧ Q i) ∧
      (r ≠ npos → pos ≤ r ∧ r < size ∧ Q r ∧
        ∀ i, pos ≤ i → i < size → Q i → r ≤ i) := by
  obtain ⟨r, hr, hspec⟩ := scan_up_spec (fun i => decide (Q i)) size size pos (by omega)
  refine ⟨r, hr, ?_⟩
  rcases hspec with ⟨e, hnone⟩ | ⟨h1, h2, h3, h4⟩
  · refine ⟨⟨fun _ => ?_, fun _ => e⟩, fun hne => absurd e hne⟩
    rintro ⟨i, hi1, hi2, hq⟩
    have := hnone i hi1 hi2
    simp only [decide_eq_false_iff_not] at this
    exact this hq
  · have hq : Q r := by simpa using h3
    have hne : r ≠ npos := by unfold npos; omega
    refine ⟨⟨fun e => absurd e hne, fun hno => absurd ⟨r, h1, h2, hq⟩ hno⟩, fun _ => ?_⟩
    refine ⟨h1, h2, hq, ?_⟩
    intro i hi1 _ hqi
    by_contra hlt
    have := h4 i hi1 (by omega)
    simp only [decide_eq_false_iff_not] at this
    exact this hqi

/-- Outcome of a downward scan from the clamped start `min(size - 1, pos)`, for a
predicate `Q`: the scan returns the greatest index below `size` and at most `pos` that
satisfies `Q`, and `npos` exactly when there is none. -/
theorem scan_down_outcome (Q : Nat → Prop) [DecidablePred Q] (size pos : Nat)
    (hs : size < SIZE_MOD) :
    ∃ r, scan_down (fun i => decide (Q i)) size (size + 1) (min (size_sub size 1) pos)
        = Res.ret r ∧
      (r = npos ↔ ¬ ∃ i, i < size ∧ i ≤ pos ∧ Q i) ∧
      (r ≠ npos → r < size ∧ r ≤ pos ∧ Q r ∧
        ∀ i, i < size → i ≤ pos → Q i → i ≤ r) := by
  by_cases h0 : size = 0
  · subst h0
    refine ⟨npos, scan_down_empty _ 0 _, ⟨fun _ => ?_, fun _ => rfl⟩, fun hne => absurd rfl hne⟩
    rintro ⟨i, hi, _⟩
    exact absurd hi (Nat.not_lt_zero i)
  · obtain ⟨hc1, hc2, hc3⟩ := last_scan_start size pos (Nat.pos_of_ne_zero h0) hs
    obtain ⟨r, hr, hspec⟩ := scan_down_spec (fun i => decide (Q i)) size hs size
      (min (size_sub size 1) pos) hc1 hc1
    refine ⟨r, hr, ?_⟩
    rcases hspec with ⟨e, hnone⟩ | ⟨h1, h2, h3⟩
    · refine ⟨⟨fun _ => ?_, fun _ => e⟩, fun hne => absurd e hne⟩
      rintro ⟨i, hi1, hi2, hq⟩
      have := hnone i (hc3 i hi1 hi2)
      simp only [decide_eq_false_iff_not] at this
      exact this hq
    · have hq : Q r := by simpa using h2
      have hlt : r < size := by omega
      have hne : r ≠ npos := by unfold npos; omega
      refine ⟨⟨fun e => absurd e hne, fun hno => absurd ⟨r, hlt, by omega, hq⟩ hno⟩, fun _ => ?_⟩
      refine ⟨hlt, by omega, hq, ?_⟩
      intro i hi1 hi2 hqi
      by_contra hgt
      have := h3 i (by omega) (hc3 i hi1 hi2)
      simp only [decide_eq_false_iff_not] at this
      exact this hqi

/-! Copying out -/

theorem operator_eq_iff_units (m : Mem) (a b : basic_string_view) :
    operator_eq m a b = true ↔ units m a = units m b := by
  rw [operator_eq_iff, units_eq_iff]

theorem units_succ (m : Mem) (d n : Nat) :
    units m ⟨d, n + 1⟩ = m d :: units m ⟨d + 1, n⟩ := by
  apply List.ext_getElem
  · simp [units]
  · intro i h1 h2
    cases i with
    | zero => simp [units]
    | succ j =>
      simp only [units, List.getElem_map, List.getElem_range, List.getElem_cons_succ]
      congr 1
      omega

theorem hash_string_view_loop_eq_foldl (cast : Nat → Nat) (m : Mem) (n : Nat) :
    ∀ it hash : Nat, hash_string_view_loop cast m it n hash
      = List.foldl (fnv_step cast) hash (units m ⟨it, n⟩) := by
  induction n with
  | zero => intro it hash; rfl
  | succ n ih =>
    intro it hash
    rw [units_succ, List.foldl_cons]
    unfold hash_string_view_loop
    exact ih (it + 1) _

theorem hash_wstring_view_loop_eq_foldl (cast : Nat → Nat) (m : Mem) (n : Nat) :
    ∀ it hash : Nat, hash_wstring_view_loop cast m it n hash
      = List.foldl (djb2_step cast) hash (units m ⟨it, n⟩) := by
  induction n with
  | zero => intro it hash; rfl
  | succ n ih =>
    intro it hash
    rw [units_succ, List.foldl_cons]
    unfold hash_wstring_view_loop
    exact ih (it + 1) _

/-! Backward search -/

theorem rfind_char_loop_spec (m : Mem) (s : basic_string_view) (c pos : Nat)
    (hpos : pos ≤ s.size_) :
    ∀ fuel ix : Nat, ix ≤ pos → pos - ix ≤ fuel →
      ∃ r, rfind_char_loop m s c pos (fuel + 1) ix = Res.ret r ∧
        ((r = npos ∧ ∀ i, i < pos - ix → m (s.data_ + i) ≠ c) ∨
         (r < pos - ix ∧ m (s.data_ + r) = c ∧
            ∀ i, r < i → i < pos - ix → m (s.data_ + i) ≠ c)) := by
  intro fuel
  induction fuel with
  | zero =>
    intro ix h1 h2
    refine ⟨npos, ?_, Or.inl ⟨rfl, fun i hi => by omega⟩⟩
    unfold rfind_char_loop
    rw [if_neg (by omega)]
  | succ fuel ih =>
    intro ix h1 h2
    by_cases hlt : ix < pos
    · have hat : «at» m s (pos - ix - 1) = Res.ret (m (s.data_ + (pos - ix - 1))) := by
        unfold «at»
        rw [if_neg (by omega)]
      have hstep : rfind_char_loop m s c pos (fuel + 1 + 1) ix =
          if Traits.eq (m (s.data_ + (pos - ix - 1))) c then Res.ret (pos - ix - 1)
          else rfind_char_loop m s c pos (fuel + 1) (ix + 1) := by
        conv => lhs; unfold rfind_char_loop
        rw [if_pos hlt, hat]
      rw [hstep]
      by_cases heq : m (s.data_ + (pos - ix - 1)) = c
      · refine ⟨pos - ix - 1, ?_, Or.inr ⟨by omega, heq, fun i h3 h4 => by omega⟩⟩
        simp [Traits.eq, heq]
      · obtain ⟨r, hr, hspec⟩ := ih (ix + 1) (by omega) (by omega)
        refine ⟨r, ?_, ?_⟩
        · simp [Traits.eq, heq, hr]
        · have hsub : pos - (ix + 1) = pos - ix - 1 := by omega
          rw [hsub] at hspec
          rcases hspec with ⟨e, hnone⟩ | ⟨h3, h4, h5⟩
          · left
            refine ⟨e, ?_⟩
            intro i hi
            by_cases hi2 : i = pos - ix - 1
            · rw [hi2]; exact heq
            · exact hnone i (by omega)
          · right
            refine ⟨by omega, h4, ?_⟩
            intro i hi1 hi2
            by_cases hi3 : i = pos - ix - 1
            · rw [hi3]; exact heq
            · exact h5 i hi1 (by omega)
    · refine ⟨npos, ?_, Or.inl ⟨rfl, fun i hi => by omega⟩⟩
      unfold rfind_char_loop
      rw [if_neg hlt]

/-- Outcome of `rfind(Char, pos)`: it returns, and the result is either `npos` with no
matching unit below `min(pos, size_)`, or the greatest matching index below
`min(pos, size_)`. -/
theorem rfind_char_spec (m : Mem) (s : basic_string_view) (c pos : Nat) :
    ∃ r, rfind_char m s c pos = Res.ret r ∧
      ((r = npos ∧ ∀ i, i < pos → i < s.size_ → m (s.data_ + i) ≠ c) ∨
       (r < pos ∧ r < s.size_ ∧ m (s.data_ + r) = c ∧
          ∀ i, r < i → i < pos → i < s.size_ → m (s.data_ + i) ≠ c)) := by
  have hmin : min pos s.size_ ≤ s.size_ ∧ min pos s.size_ ≤ pos ∧
      (∀ i, i < pos → i < s.size_ → i < min pos s.size_) := by
    unfold min
    split
    · exact ⟨by omega, by omega, fun i h1 h2 => by omega⟩
    · exact ⟨by omega, by omega, fun i h1 h2 => by omega⟩
  obtain ⟨hm1, hm2, hm3⟩ := hmin
  obtain ⟨r, hr, hspec⟩ := rfind_char_loop_spec m s c (min pos s.size_) hm1
    (min pos s.size_) 0 (Nat.zero_le _) (by omega)
  refine ⟨r, hr, ?_⟩
  rw [Nat.sub_zero] at hspec
  rcases hspec with ⟨e, hnone⟩ | ⟨h3, h4, h5⟩
  · exact Or.inl ⟨e, fun i h1 h2 => hnone i (hm3 i h1 h2)⟩
  · exact Or.inr ⟨by omega, by omega, h4, fun i h1 h2 h6 => h5 i h1 (hm3 i h2 h6)⟩

/-- The loop of `rfind(view, pos)` returns once its fuel exceeds `pos`, and a result
other than `npos` is an occurrence of the needle that starts below `pos`. -/
theorem rfind_loop_sound (m : Mem) (s needle : basic_string_view) :
    ∀ fuel pos : Nat, pos ≤ fuel →
      ∃ r, rfind_loop m s needle needle.size_ (fuel + 1) pos = Res.ret r ∧
        (r ≠ npos → r < pos ∧ occurs_at m s needle r) := by
  have hstep : ∀ fuel pos : Nat, rfind_loop m s needle needle.size_ (fuel + 1) pos =
      match rfind_char m s (front m needle) pos with
      | Res.ret pick =>
        if pick = npos then Res.ret npos
        else
          match substr s pick needle.size_ with
          | Res.ret sub =>
            if operator_eq m sub needle then Res.ret pick
            else if pick = 0 then Res.ret npos
            else rfind_loop m s needle needle.size_ fuel (pick - 1)
          | Res.out_of_range => Res.out_of_range
          | Res.out_of_fuel => Res.out_of_fuel
      | Res.out_of_range => Res.out_of_range
      | Res.out_of_fuel => Res.out_of_fuel := by
    intro fuel pos
    conv => lhs; unfold rfind_loop
  have hone : ∀ fuel pos : Nat,
      (∀ pick, pick < pos → pick ≠ 0 →
        ∃ r, rfind_loop m s needle needle.size_ fuel (pick - 1) = Res.ret r ∧
          (r ≠ npos → r < pick - 1 ∧ occurs_at m s needle r)) →
      ∃ r, rfind_loop m s needle needle.size_ (fuel + 1) pos = Res.ret r ∧
        (r ≠ npos → r < pos ∧ occurs_at m s needle r) := by
    intro fuel pos hrec
    rw [hstep]
    obtain ⟨pick, hr, hspec⟩ := rfind_char_spec m s (front m needle) pos
    rw [hr]
    by_cases hn : pick = npos
    · exact ⟨npos, by simp [hn], fun h => absurd rfl h⟩
    · rcases hspec with ⟨e, -⟩ | ⟨h1, h2, -, -⟩
      · exact absurd e hn
      · have hsub : substr s pick needle.size_ =
            Res.ret ⟨s.data_ + pick, min needle.size_ (s.size_ - pick)⟩ := by
          unfold substr
          rw [if_neg (by omega)]
        by_cases heq : operator_eq m ⟨s.data_ + pick, min needle.size_ (s.size_ - pick)⟩
            needle = true
        · refine ⟨pick, by simp [hn, hsub, heq], fun _ => ⟨h1, ?_⟩⟩
          rw [substr_eq_needle_iff] at heq
          exact ⟨by omega, heq.2⟩
        · by_cases h0 : pick = 0
          · refine ⟨npos, ?_, fun h => absurd rfl h⟩
            dsimp only
            rw [if_neg hn, hsub]
            dsimp only
            rw [if_neg heq, if_pos h0]
          · obtain ⟨r, hrr, hs⟩ := hrec pick h1 h0
            refine ⟨r, by simp [hn, hsub, heq, h0, hrr], fun hne => ?_⟩
            obtain ⟨h3, h4⟩ := hs hne
            exact ⟨by omega, h4⟩
  intro fuel
  induction fuel with
  | zero =>
    intro pos h
    apply hone
    intro pick hp
    omega
  | succ fuel ih =>
    intro pos h
    apply hone
    intro pick hp _
    exact ih (pick - 1) (by omega)

/-! Single-unit overloads of the character-set scans -/

theorem mem_of_single (m : Mem) (v : basic_string_view) (c x : Nat)
    (h1 : v.size_ = 1) (hc : m v.data_ = c) : mem_of m v x ↔ x = c := by
  constructor
  · rintro ⟨k, hk, hm⟩
    have : k = 0 := by omega
    subst this
    rw [Nat.add_zero, hc] at hm
    exact hm.symm
  · intro h
    exact ⟨0, by omega, by rw [Nat.add_zero, hc, h]⟩

/-- For a start inside the view or at its end, `find_first_of(c, pos)` agrees with
`find_first_of` on a one-unit set holding `c`. -/
theorem find_first_of_char_agrees (m : Mem) (s v : basic_string_view) (c pos : Nat)
    (hs : s.size_ < SIZE_MOD) (hpos : pos ≤ s.size_)
    (h1 : v.size_ = 1) (hc : m v.data_ = c) :
    find_first_of_char m s c pos = find_first_of m s v pos := by
  have hv : v.size_ < SIZE_MOD := by rw [h1]; decide
  obtain ⟨r2, hr2, hiff, hsome⟩ :=
    scan_up_outcome (fun i => mem_of m v (index m s i)) s.size_ pos hs
  have hcall : find_first_of m s v pos = Res.ret r2 := by
    unfold find_first_of
    rw [if_neg (by omega), find_first_of_loop_eq m s v hv]
    exact hr2
  rw [hcall]
  unfold find_first_of_char
  rcases find_char_spec m s c pos hs hpos with ⟨hr, hno⟩ | ⟨r, hr, h2, h3, h4, h5⟩
  · rw [hr]
    congr 1
    symm
    rw [hiff]
    rintro ⟨i, hi1, hi2, hq⟩
    exact hno i hi1 hi2 ((mem_of_single m v c _ h1 hc).mp hq)
  · rw [hr]
    congr 1
    have hne : r2 ≠ npos := by
      intro e
      exact (hiff.mp e) ⟨r, h2, h3, (mem_of_single m v c _ h1 hc).mpr h4⟩
    obtain ⟨g1, g2, g3, g4⟩ := hsome hne
    have hle : r2 ≤ r := g4 r h2 h3 ((mem_of_single m v c _ h1 hc).mpr h4)
    have hge : ¬ r2 < r := fun hlt =>
      h5 r2 g1 hlt ((mem_of_single m v c _ h1 hc).mp g3)
    omega

/-- For a start at or beyond the end of the view, as the default `npos`,
`find_last_of(c, pos)` agrees with `find_last_of` on a one-unit set holding `c`. -/
theorem find_last_of_char_agrees (m : Mem) (s v : basic_string_view) (c pos : Nat)
    (hs : s.size_ < SIZE_MOD) (hpos : s.size_ ≤ pos)
    (h1 : v.size_ = 1) (hc : m v.data_ = c) :
    find_last_of_char m s c pos = find_last_of m s v pos := by
  have hv : v.size_ < SIZE_MOD := by rw [h1]; decide
  obtain ⟨r2, hr2, hiff, hsome⟩ :=
    scan_down_outcome (fun i => mem_of m v (index m s i)) s.size_ pos hs
  have hcall : find_last_of m s v pos = Res.ret r2 := by
    unfold find_last_of
    rw [find_last_of_loop_eq m s v hv]
    exact hr2
  rw [hcall]
  unfold find_last_of_char
  obtain ⟨r, hr, hspec⟩ := rfind_char_spec m s c pos
  rw [hr]
  congr 1
  rcases hspec with ⟨e, hno⟩ | ⟨h2, h3, h4, h5⟩
  · rw [e]
    symm
    rw [hiff]
    rintro ⟨i, hi1, _, hq⟩
    exact hno i (by omega) hi1 ((mem_of_single m v c _ h1 hc).mp hq)
  · have hne : r2 ≠ npos := by
      intro e
      exact (hiff.mp e) ⟨r, h3, by omega, (mem_of_single m v c _ h1 hc).mpr h4⟩
    obtain ⟨g1, g2, g3, g4⟩ := hsome hne
    have hle : r ≤ r2 := g4 r h3 (by omega) ((mem_of_single m v c _ h1 hc).mpr h4)
    have hge : ¬ r < r2 := fun hlt =>
      h5 r2 hlt (by omega) g1 ((mem_of_single m v c _ h1 hc).mp g3)
    omega

/-- C1: `substr(pos, count)` throws out-of-range exactly when `pos > size_`; otherwise
it returns the view that starts `pos` units further and has `min(count, size_ - pos)`
units, whose content is the `count`-clamped run of `s` from index `pos`. On `"aaa"`,
`substr(0, 100)` is the whole view and `substr(4)` throws. -/
theorem C1_substr_contract (m : Mem) (s : basic_string_view) (pos count : Nat) :
    (substr s pos count = Res.out_of_range ↔ pos > s.size_) ∧
    (pos ≤ s.size_ →
      substr s pos count = Res.ret ⟨s.data_ + pos, Nat.min count (s.size_ - pos)⟩ ∧
      units m ⟨s.data_ + pos, Nat.min count (s.size_ - pos)⟩
        = ((units m s).drop pos).take count) ∧
    (substr ⟨112, 3⟩ 0 100 = Res.ret ⟨112, 3⟩ ∧ units sample_mem ⟨112, 3⟩ = [97, 97, 97]) ∧
    substr ⟨112, 3⟩ 4 npos = Res.out_of_range := by
  refine ⟨?_, ?_, by decide, by decide⟩
  · unfold substr
    constructor
    · intro h
      by_contra hc
      rw [if_neg hc] at h
      cases h
    · intro h
      rw [if_pos h]
  · intro h
    constructor
    · unfold substr
      rw [if_neg (Nat.not_lt.mpr h), min_eq_nat_min]
    · exact units_slice m s.data_ s.size_ pos count

/-- Witness of C1 on the view `"aaa"`: slicing from index 1 with an overshooting count
succeeds and yields the last two units. -/
theorem C1_substr_contract_witness :
    substr ⟨112, 3⟩ 1 100 = Res.ret ⟨113, 2⟩ ∧ units sample_mem ⟨113, 2⟩ = [97, 97] :=
  ⟨((C1_substr_contract sample_mem ⟨112, 3⟩ 1 100).2.1 (by decide)).1, by decide⟩

/-- C2: for a non-empty needle, `find(needle, pos)` run with fuel above `size_` returns,
and its result is the least index `i >= pos` at which the needle occurs inside the view;
it is `npos` exactly when there is no such index. -/
theorem C2_find_is_first_occurrence (fuel : Nat) (m : Mem) (s needle : basic_string_view)
    (pos : Nat) (hs : s.size_ < SIZE_MOD) (hn : needle.size_ ≠ 0) (hfuel : s.size_ < fuel) :
    ∃ r, find_view fuel m s needle pos = Res.ret r ∧
      (r = npos ↔ ¬ ∃ i, pos ≤ i ∧ occurs_at m s needle i) ∧
      (r ≠ npos → pos ≤ r ∧ occurs_at m s needle r ∧
        ∀ i, pos ≤ i → occurs_at m s needle i → r ≤ i) := by
  have hshape : ∀ r : Nat,
      ((r = npos ∧ ∀ i, pos ≤ i → ¬ occurs_at m s needle i) ∨
       (r < s.size_ ∧ pos ≤ r ∧ occurs_at m s needle r ∧
          ∀ i, pos ≤ i → i < r → ¬ occurs_at m s needle i)) →
      (r = npos ↔ ¬ ∃ i, pos ≤ i ∧ occurs_at m s needle i) ∧
      (r ≠ npos → pos ≤ r ∧ occurs_at m s needle r ∧
        ∀ i, pos ≤ i → occurs_at m s needle i → r ≤ i) := by
    intro r hr
    rcases hr with ⟨e, hnone⟩ | ⟨hr1, hr2, hr3, hr4⟩
    · refine ⟨⟨fun _ => ?_, fun _ => e⟩, fun hne => absurd e hne⟩
      rintro ⟨i, hi, hocc⟩
      exact hnone i hi hocc
    · have hne : r ≠ npos := by unfold npos; omega
      refine ⟨⟨fun e => absurd e hne, fun hno => absurd ⟨r, hr2, hr3⟩ hno⟩, fun _ => ?_⟩
      refine ⟨hr2, hr3, ?_⟩
      intro i hi hocc
      by_contra hlt
      exact hr4 i hi (by omega) hocc
  by_cases hge : pos ≥ s.size_
  · refine ⟨npos, ?_, hshape npos (Or.inl ⟨rfl, ?_⟩)⟩
    · unfold find_view
      rw [if_pos hge]
    · intro i hi hocc
      have := (occurs_at_front m s needle i hn hocc).1
      omega
  · obtain ⟨f, hf⟩ : ∃ f, fuel = f + 1 := ⟨fuel - 1, by omega⟩
    obtain ⟨r, hr, hspec⟩ := find_loop_spec m s needle hs hn f pos (by omega)
    refine ⟨r, ?_, hshape r hspec⟩
    unfold find_view
    have hemp : empty needle = false := by
      unfold empty
      exact decide_eq_false hn
    rw [if_neg hge, hemp, hf]
    simpa using hr

/-- Witness of C2: `"Hello world"` searched for `"orld"` from the start with fuel 12. -/
theorem C2_find_is_first_occurrence_witness :
    ((11 : Nat) < SIZE_MOD ∧ (4 : Nat) ≠ 0 ∧ (11 : Nat) < 12) ∧
    ∃ r, find_view 12 sample_mem ⟨16, 11⟩ ⟨64, 4⟩ 0 = Res.ret r ∧
      (r = npos ↔ ¬ ∃ i, 0 ≤ i ∧ occurs_at sample_mem ⟨16, 11⟩ ⟨64, 4⟩ i) ∧
      (r ≠ npos → 0 ≤ r ∧ occurs_at sample_mem ⟨16, 11⟩ ⟨64, 4⟩ r ∧
        ∀ i, 0 ≤ i → occurs_at sample_mem ⟨16, 11⟩ ⟨64, 4⟩ i → r ≤ i) :=
  ⟨by decide,
   C2_find_is_first_occurrence 12 sample_mem ⟨16, 11⟩ ⟨64, 4⟩ 0
     (by decide) (by decide) (by decide)⟩

/-- C3: on the failing inputs the code returns `npos` for an empty needle searched from
`pos == size_`: on the empty view at `pos = 0` and on `"Hello world"` at `pos = 11`,
where the claim asks for `pos` itself. The test at the head of the method is
`pos >= size_` and comes before the test for the empty needle, for every fuel. -/
theorem C3_find_empty_needle_at_size :
    (∀ fuel : Nat, find_view fuel sample_mem default_view default_view 0 = Res.ret npos) ∧
    (∀ fuel : Nat, find_view fuel sample_mem ⟨16, 11⟩ ⟨64, 0⟩ 11 = Res.ret npos) ∧
    npos ≠ 0 ∧ npos ≠ 11 ∧
    (∀ fuel : Nat, find_view fuel sample_mem ⟨16, 11⟩ ⟨64, 0⟩ 8 = Res.ret 8) := by
  refine ⟨fun _ => rfl, fun _ => rfl, by decide, by decide, fun _ => rfl⟩

/-- C4: on `"aaaa"` with needle `"aa"` and the default position the code returns index 1,
although the needle also occurs at index 2, the last occurrence; and on `"Hello world"`
with needle `"o"` and `pos = 4` it returns `npos`, although the needle occurs at index 4. -/
theorem C4_rfind_misses_last_occurrence :
    (∀ fuel : Nat, rfind_view (fuel + 2) sample_mem ⟨80, 4⟩ ⟨96, 2⟩ npos = Res.ret 1) ∧
    occurs_at sample_mem ⟨80, 4⟩ ⟨96, 2⟩ 2 ∧ 2 ≤ Nat.min npos 4 ∧
    (∀ fuel : Nat, rfind_view (fuel + 1) sample_mem ⟨16, 11⟩ ⟨64, 1⟩ 4 = Res.ret npos) ∧
    occurs_at sample_mem ⟨16, 11⟩ ⟨64, 1⟩ 4 := by
  refine ⟨fun _ => rfl, by decide, by decide, fun _ => rfl, by decide⟩

/-- C5: on `"abc"`, `rfind('c', 2)` returns `npos` although the unit at index 2 is `'c'`:
the scan starts at index `min(pos, size_) - 1`, so `pos` itself is not examined. -/
theorem C5_rfind_char_excludes_pos :
    rfind_char sample_mem ⟨128, 3⟩ 99 2 = Res.ret npos ∧
    index sample_mem ⟨128, 3⟩ 2 = 99 ∧
    rfind_char sample_mem ⟨128, 3⟩ 99 3 = Res.ret 2 := by
  decide

/-- C6: on `"aaa"`, `find('a', 4)` throws out-of-range (from its call `substr(pos)`)
where the claim asks for `npos`; at `pos == size_` it returns `npos`. -/
theorem C6_find_char_throws_beyond_size :
    find_char sample_mem ⟨112, 3⟩ 97 4 = Res.out_of_range ∧
    find_char sample_mem ⟨112, 3⟩ 97 3 = Res.ret npos ∧
    find_char sample_mem ⟨112, 3⟩ 97 1 = Res.ret 1 := by
  decide

/-- What `swap` does: both objects end up holding the state `other` had. -/
theorem swap_copies_other (σ : Objects) (this other : Nat) :
    load (swap σ this other) this = load σ other ∧
    load (swap σ this other) other = load σ other := by
  by_cases h : this = other
  · subst h
    simp [load, swap, tswap, assign]
  · have h2 : ¬ other = this := fun e => h e.symm
    simp [load, swap, tswap, assign, h, h2]

/-- C7: with `a` holding `(16, 11)` and `b` holding `(80, 4)`, after `a.swap(b)` the
object `a` holds `(80, 4)` and `b` still holds `(80, 4)`: the old state of `a` is lost
instead of being moved to `b`. -/
theorem C7_swap_loses_this :
    load (swap (fun r => if r.obj = 0 then (if r.field = Field.data_ then 16 else 11)
                         else (if r.field = Field.data_ then 80 else 4)) 0 1) 0 = ⟨80, 4⟩ ∧
    load (swap (fun r => if r.obj = 0 then (if r.field = Field.data_ then 16 else 11)
                         else (if r.field = Field.data_ then 80 else 4)) 0 1) 1 = ⟨80, 4⟩ ∧
    load (fun r => if r.obj = 0 then (if r.field = Field.data_ then 16 else 11)
                   else (if r.field = Field.data_ then 80 else 4)) 0 = ⟨16, 11⟩ := by
  decide

/-- C8: for a view `a` of 2147483648 zero units and the empty view `b`, `a.compare(b)`
is negative although `b` is a proper prefix of `a` (and `b.compare(a)` is negative as
well); for `a` of 4294967296 units it is zero although the lengths differ. The length
difference is narrowed to `int`. -/
theorem C8_compare_narrows_length_difference :
    compare zero_mem ⟨16, 2147483648⟩ default_view = -2147483648 ∧
    compare zero_mem ⟨16, 4294967296⟩ default_view = 0 ∧
    compare zero_mem default_view ⟨16, 2147483648⟩ = -2147483648 := by
  decide

/-- C9: for a view `a` of 4294967296 zero units and the empty view `b`, `a.compare(b)` is
zero while `a == b` is false and `a != b` is true, and none of `a < b`, `a == b`,
`a > b` holds. -/
theorem C9_operators_disagree_with_compare :
    compare zero_mem ⟨16, 4294967296⟩ default_view = 0 ∧
    operator_eq zero_mem ⟨16, 4294967296⟩ default_view = false ∧
    operator_ne zero_mem ⟨16, 4294967296⟩ default_view = true ∧
    operator_lt zero_mem ⟨16, 4294967296⟩ default_view = false ∧
    operator_gt zero_mem ⟨16, 4294967296⟩ default_view = false := by
  decide

/-- C10: `a == b` holds exactly when the two views have the same length and equal units
at every index, that is, exactly when they denote the same unit sequence, whatever
their `data_` pointers are; the default-constructed view (null pointer, length 0) equals
every view of length 0. -/
theorem C10_equality_is_content (m : Mem) (a b : basic_string_view) :
    (operator_eq m a b = true ↔
      a.size_ = b.size_ ∧ ∀ i, i < a.size_ → m (a.data_ + i) = m (b.data_ + i)) ∧
    (operator_eq m a b = true ↔ units m a = units m b) ∧
    (∀ d : Nat, operator_eq m default_view ⟨d, 0⟩ = true ∧
      operator_eq m ⟨d, 0⟩ default_view = true) := by
  refine ⟨operator_eq_iff m a b, ?_, ?_⟩
  · rw [operator_eq_iff, units_eq_iff]
  · intro d
    constructor
    · rw [operator_eq_iff]
      exact ⟨rfl, fun i hi => absurd hi (Nat.not_lt_zero i)⟩
    · rw [operator_eq_iff]
      exact ⟨rfl, fun i hi => absurd hi (Nat.not_lt_zero i)⟩

/-- C11: `find_first_of(v, pos)` returns, and its result is the least index `i` with
`pos <= i < size_` whose unit occurs in `v`; it is `npos` exactly when there is no such
index, in particular when `pos > size_` and when the set is empty. -/
theorem C11_find_first_of_least_member (m : Mem) (s v : basic_string_view) (pos : Nat)
    (hs : s.size_ < SIZE_MOD) (hv : v.size_ < SIZE_MOD) :
    ∃ r, find_first_of m s v pos = Res.ret r ∧
      (r = npos ↔ ¬ ∃ i, pos ≤ i ∧ i < s.size_ ∧ mem_of m v (index m s i)) ∧
      (r ≠ npos → pos ≤ r ∧ r < s.size_ ∧ mem_of m v (index m s r) ∧
        ∀ i, pos ≤ i → i < s.size_ → mem_of m v (index m s i) → r ≤ i) ∧
      (pos > s.size_ → r = npos) ∧
      (v.size_ = 0 → r = npos) := by
  obtain ⟨r, hr, hiff, hsome⟩ :=
    scan_up_outcome (fun i => mem_of m v (index m s i)) s.size_ pos hs
  have hcall : find_first_of m s v pos = Res.ret r := by
    unfold find_first_of
    by_cases hgt : pos > s.size_
    · rw [if_pos hgt]
      have : r = npos := by
        rw [hiff]
        rintro ⟨i, h1, h2, _⟩
        omega
      rw [this]
    · rw [if_neg hgt, find_first_of_loop_eq m s v hv]
      exact hr
  refine ⟨r, hcall, hiff, hsome, ?_, ?_⟩
  · intro hgt
    rw [hiff]
    rintro ⟨i, h1, h2, _⟩
    omega
  · intro h0
    rw [hiff]
    rintro ⟨i, _, _, k, hk, _⟩
    omega

/-- Witness of C11: `"Hello world"` scanned for the set `"lo"` from the start. -/
theorem C11_find_first_of_least_member_witness :
    ((11 : Nat) < SIZE_MOD ∧ (2 : Nat) < SIZE_MOD) ∧
    find_first_of sample_mem_sets ⟨16, 11⟩ ⟨160, 2⟩ 0 = Res.ret 2 ∧
    ∃ r, find_first_of sample_mem_sets ⟨16, 11⟩ ⟨160, 2⟩ 0 = Res.ret r ∧
      (r = npos ↔ ¬ ∃ i, 0 ≤ i ∧ i < 11 ∧
        mem_of sample_mem_sets ⟨160, 2⟩ (index sample_mem_sets ⟨16, 11⟩ i)) ∧
      (r ≠ npos → 0 ≤ r ∧ r < 11 ∧
        mem_of sample_mem_sets ⟨160, 2⟩ (index sample_mem_sets ⟨16, 11⟩ r) ∧
        ∀ i, 0 ≤ i → i < 11 →
          mem_of sample_mem_sets ⟨160, 2⟩ (index sample_mem_sets ⟨16, 11⟩ i) → r ≤ i) ∧
      (0 > 11 → r = npos) ∧
      ((2 : Nat) = 0 → r = npos) :=
  ⟨by decide, by decide,
   C11_find_first_of_least_member sample_mem_sets ⟨16, 11⟩ ⟨160, 2⟩ 0 (by decide) (by decide)⟩

/-- C12: `find_last_of(v, pos)` returns, and its result is the greatest index `i` with
`i < size_` and `i <= pos` whose unit occurs in `v`; it is `npos` exactly when there is
no such index, in particular on the empty view. A `pos` beyond the view is clamped. -/
theorem C12_find_last_of_greatest_member (m : Mem) (s v : basic_string_view) (pos : Nat)
    (hs : s.size_ < SIZE_MOD) (hv : v.size_ < SIZE_MOD) :
    ∃ r, find_last_of m s v pos = Res.ret r ∧
      (r = npos ↔ ¬ ∃ i, i < s.size_ ∧ i ≤ pos ∧ mem_of m v (index m s i)) ∧
      (r ≠ npos → r < s.size_ ∧ r ≤ pos ∧ mem_of m v (index m s r) ∧
        ∀ i, i < s.size_ → i ≤ pos → mem_of m v (index m s i) → i ≤ r) ∧
      (s.size_ = 0 → r = npos) := by
  obtain ⟨r, hr, hiff, hsome⟩ :=
    scan_down_outcome (fun i => mem_of m v (index m s i)) s.size_ pos hs
  refine ⟨r, ?_, hiff, hsome, ?_⟩
  · unfold find_last_of
    rw [find_last_of_loop_eq m s v hv]
    exact hr
  · intro h0
    rw [hiff]
    rintro ⟨i, h1, _⟩
    omega

/-- Witness of C12: `"Hello world"` scanned backwards for the set `"lo"` from the default
position, and the empty view. -/
theorem C12_find_last_of_greatest_member_witness :
    ((11 : Nat) < SIZE_MOD ∧ (2 : Nat) < SIZE_MOD) ∧
    find_last_of sample_mem_sets ⟨16, 11⟩ ⟨160, 2⟩ npos = Res.ret 9 ∧
    find_last_of sample_mem_sets default_view ⟨160, 2⟩ npos = Res.ret npos ∧
    ∃ r, find_last_of sample_mem_sets ⟨16, 11⟩ ⟨160, 2⟩ npos = Res.ret r ∧
      (r = npos ↔ ¬ ∃ i, i < 11 ∧ i ≤ npos ∧
        mem_of sample_mem_sets ⟨160, 2⟩ (index sample_mem_sets ⟨16, 11⟩ i)) ∧
      (r ≠ npos → r < 11 ∧ r ≤ npos ∧
        mem_of sample_mem_sets ⟨160, 2⟩ (index sample_mem_sets ⟨16, 11⟩ r) ∧
        ∀ i, i < 11 → i ≤ npos →
          mem_of sample_mem_sets ⟨160, 2⟩ (index sample_mem_sets ⟨16, 11⟩ i) → i ≤ r) ∧
      ((11 : Nat) = 0 → r = npos) :=
  ⟨by decide, by decide, by decide,
   C12_find_last_of_greatest_member sample_mem_sets ⟨16, 11⟩ ⟨160, 2⟩ npos
     (by decide) (by decide)⟩

/-- C13: `find_first_not_of(v, pos)` returns the least index `i` with `pos <= i < size_`
whose unit does not occur in `v` (`npos` exactly when there is none, in particular when
`pos > size_`), and `find_last_not_of(v, pos)` returns the greatest index `i` with
`i < size_` and `i <= pos` whose unit does not occur in `v` (`npos` exactly when there
is none, in particular on the empty view). With an empty set the first one returns `pos`
when `pos < size_`, and the second one returns the smaller of `pos` and `size_ - 1` when
the view is not empty. -/
theorem C13_find_not_of_scans (m : Mem) (s v : basic_string_view) (pos : Nat)
    (hs : s.size_ < SIZE_MOD) (hv : v.size_ < SIZE_MOD) :
    (∃ r, find_first_not_of m s v pos = Res.ret r ∧
      (r = npos ↔ ¬ ∃ i, pos ≤ i ∧ i < s.size_ ∧ ¬ mem_of m v (index m s i)) ∧
      (r ≠ npos → pos ≤ r ∧ r < s.size_ ∧ ¬ mem_of m v (index m s r) ∧
        ∀ i, pos ≤ i → i < s.size_ → ¬ mem_of m v (index m s i) → r ≤ i) ∧
      (pos > s.size_ → r = npos) ∧
      (v.size_ = 0 → pos < s.size_ → r = pos)) ∧
    (∃ r, find_last_not_of m s v pos = Res.ret r ∧
      (r = npos ↔ ¬ ∃ i, i < s.size_ ∧ i ≤ pos ∧ ¬ mem_of m v (index m s i)) ∧
      (r ≠ npos → r < s.size_ ∧ r ≤ pos ∧ ¬ mem_of m v (index m s r) ∧
        ∀ i, i < s.size_ → i ≤ pos → ¬ mem_of m v (index m s i) → i ≤ r) ∧
      (s.size_ = 0 → r = npos) ∧
      (v.size_ = 0 → 0 < s.size_ → r = Nat.min pos (s.size_ - 1))) := by
  have hempty : v.size_ = 0 → ∀ c, ¬ mem_of m v c := by
    rintro h0 c ⟨k, hk, _⟩
    omega
  constructor
  · obtain ⟨r, hr, hiff, hsome⟩ :=
      scan_up_outcome (fun i => ¬ mem_of m v (index m s i)) s.size_ pos hs
    have hgtn : pos > s.size_ → r = npos := by
      intro hgt
      rw [hiff]
      rintro ⟨i, h1, h2, _⟩
      omega
    have hcall : find_first_not_of m s v pos = Res.ret r := by
      unfold find_first_not_of
      by_cases hgt : pos > s.size_
      · rw [if_pos hgt, hgtn hgt]
      · rw [if_neg hgt, find_first_not_of_loop_eq m s v hv]
        exact hr
    refine ⟨r, hcall, hiff, hsome, hgtn, ?_⟩
    intro h0 hlt
    have hne : r ≠ npos := by
      intro e
      exact (hiff.mp e) ⟨pos, Nat.le_refl _, hlt, hempty h0 _⟩
    obtain ⟨h1, _, _, h4⟩ := hsome hne
    have := h4 pos (Nat.le_refl _) hlt (hempty h0 _)
    omega
  · obtain ⟨r, hr, hiff, hsome⟩ :=
      scan_down_outcome (fun i => ¬ mem_of m v (index m s i)) s.size_ pos hs
    refine ⟨r, ?_, hiff, hsome, ?_, ?_⟩
    · unfold find_last_not_of
      rw [find_last_not_of_loop_eq m s v hv]
      exact hr
    · intro h0
      rw [hiff]
      rintro ⟨i, h1, _⟩
      omega
    · intro h0 hpos
      have hle1 : Nat.min pos (s.size_ - 1) ≤ pos := Nat.min_le_left _ _
      have hle2 : Nat.min pos (s.size_ - 1) ≤ s.size_ - 1 := Nat.min_le_right _ _
      have hne : r ≠ npos := by
        intro e
        exact (hiff.mp e) ⟨Nat.min pos (s.size_ - 1), by omega, hle1, hempty h0 _⟩
      obtain ⟨h1, h2, _, h4⟩ := hsome hne
      have h5 := h4 (Nat.min pos (s.size_ - 1)) (by omega) hle1 (hempty h0 _)
      have h6 : r ≤ Nat.min pos (s.size_ - 1) := Nat.le_min.mpr ⟨h2, by omega⟩
      omega

/-- Witness of C13: `"Hello world"` scanned for the units outside the set `"lo"`. -/
theorem C13_find_not_of_scans_witness :
    ((11 : Nat) < SIZE_MOD ∧ (2 : Nat) < SIZE_MOD) ∧
    find_first_not_of sample_mem_sets ⟨16, 11⟩ ⟨160, 2⟩ 2 = Res.ret 5 ∧
    find_last_not_of sample_mem_sets ⟨16, 11⟩ ⟨160, 2⟩ 9 = Res.ret 8 ∧
    (∃ r, find_first_not_of sample_mem_sets ⟨16, 11⟩ ⟨160, 2⟩ 2 = Res.ret r ∧
      (r = npos ↔ ¬ ∃ i, 2 ≤ i ∧ i < 11 ∧
        ¬ mem_of sample_mem_sets ⟨160, 2⟩ (index sample_mem_sets ⟨16, 11⟩ i))) :=
  ⟨by decide, by decide, by decide,
   (C13_find_not_of_scans sample_mem_sets ⟨16, 11⟩ ⟨160, 2⟩ 2 (by decide) (by decide)).1.elim
     (fun r h => ⟨r, h.1, h.2.1⟩)⟩

/-- C14, as stated, fails: on `"Hello world"` with the set `"dlrow "` and the default
start position, neither overload of `find_last_not_of` returns 4, whatever the fuel of
the length scan; the unit at index 4 is `'o'`, which occurs in the set. -/
theorem C14_find_last_not_of_is_not_4 :
    find_last_not_of sample_mem_sets ⟨16, 11⟩ ⟨144, 6⟩ npos ≠ Res.ret 4 ∧
    (¬ ∃ fuel : Nat, find_last_not_of_cstr fuel sample_mem_sets ⟨16, 11⟩ 144 npos = Res.ret 4) ∧
    mem_of sample_mem_sets ⟨144, 6⟩ (index sample_mem_sets ⟨16, 11⟩ 4) := by
  refine ⟨by decide, ?_, by decide⟩
  rintro ⟨fuel, h⟩
  match fuel, h with
  | 0, h => exact absurd h (by decide)
  | 1, h => exact absurd h (by decide)
  | 2, h => exact absurd h (by decide)
  | 3, h => exact absurd h (by decide)
  | 4, h => exact absurd h (by decide)
  | 5, h => exact absurd h (by decide)
  | 6, h => exact absurd h (by decide)
  | f + 7, h =>
    have e : find_last_not_of_cstr (f + 7) sample_mem_sets ⟨16, 11⟩ 144 npos = Res.ret 1 := rfl
    rw [e] at h
    exact absurd h (by decide)

/-- C14, amended: on the 11-unit haystack `"Hello world"`, `find_last_not_of("dlrow ")`
with the default start position returns 1, for the view overload and for the
null-terminated overload once the length scan has fuel 7 or more; index 1 holds `'e'`,
the last unit outside the set. -/
theorem C14_find_last_not_of_is_1 :
    units sample_mem_sets ⟨16, 11⟩ = [72, 101, 108, 108, 111, 32, 119, 111, 114, 108, 100] ∧
    units sample_mem_sets ⟨144, 7⟩ = [100, 108, 114, 111, 119, 32, 0] ∧
    find_last_not_of sample_mem_sets ⟨16, 11⟩ ⟨144, 6⟩ npos = Res.ret 1 ∧
    (∀ fuel : Nat,
      find_last_not_of_cstr (fuel + 7) sample_mem_sets ⟨16, 11⟩ 144 npos = Res.ret 1) := by
  refine ⟨by decide, by decide, by decide, fun _ => rfl⟩

/-- C15: `remove_prefix(n)` and `remove_suffix(n)` throw out-of-range exactly when
`n > size_`, and then the view is unchanged; otherwise `remove_prefix(n)` leaves the view
`(data_ + n, size_ - n)`, which is the old `substr(n)`, and `remove_suffix(n)` leaves the
view `(data_, size_ - n)`, which is the old `substr(0, size_ - n)`. -/
theorem C15_remove_prefix_suffix (s : basic_string_view) (n : Nat) (hs : s.size_ < SIZE_MOD) :
    (( remove_prefix s n).1 = Res.out_of_range ↔ n > s.size_) ∧
    ((remove_suffix s n).1 = Res.out_of_range ↔ n > s.size_) ∧
    (n > s.size_ → ( remove_prefix s n).2 = s ∧ (remove_suffix s n).2 = s) ∧
    (n ≤ s.size_ →
      remove_prefix s n = (Res.ret (), ⟨s.data_ + n, s.size_ - n⟩) ∧
      substr s n npos = Res.ret ( remove_prefix s n).2 ∧
      remove_suffix s n = (Res.ret (), ⟨s.data_, s.size_ - n⟩) ∧
      substr s 0 (s.size_ - n) = Res.ret (remove_suffix s n).2) := by
  refine ⟨?_, ?_, ?_, ?_⟩
  · unfold remove_prefix
    by_cases h : n > s.size_
    · simp [h]
    · simp [h]
  · unfold remove_suffix
    by_cases h : n > s.size_
    · simp [h]
    · simp [h]
  · intro h
    unfold remove_prefix remove_suffix
    simp [h]
  · intro h
    have hn : ¬ n > s.size_ := by omega
    have hp : remove_prefix s n = (Res.ret (), ⟨s.data_ + n, s.size_ - n⟩) := by
      unfold remove_prefix
      rw [if_neg hn]
    have hq : remove_suffix s n = (Res.ret (), ⟨s.data_, s.size_ - n⟩) := by
      unfold remove_suffix
      rw [if_neg hn]
    refine ⟨hp, ?_, hq, ?_⟩
    · rw [hp]
      unfold substr
      rw [if_neg hn, min_npos _ (by omega)]
    · rw [hq]
      unfold substr
      have e : min (s.size_ - n) (s.size_ - 0) = s.size_ - n := by
        unfold min
        split <;> omega
      rw [if_neg (by omega), e]
      rfl

/-- Witness of C15: trimming 5 units from either end of `"Hello world"`. -/
theorem C15_remove_prefix_suffix_witness :
    (11 : Nat) < SIZE_MOD ∧
    remove_prefix ⟨16, 11⟩ 5 = (Res.ret (), ⟨21, 6⟩) ∧
    remove_suffix ⟨16, 11⟩ 5 = (Res.ret (), ⟨16, 6⟩) ∧
    remove_prefix ⟨16, 11⟩ 12 = (Res.out_of_range, ⟨16, 11⟩) ∧
    substr ⟨16, 11⟩ 5 npos = Res.ret ( remove_prefix ⟨16, 11⟩ 5).2 :=
  ⟨by decide, by decide, by decide, by decide,
   ((C15_remove_prefix_suffix ⟨16, 11⟩ 5 (by decide)).2.2.2 (by decide)).2.1⟩

/-- C16: for the view constructed from `(str, len)`, `size()` is `len`; `at(i)` throws
out-of-range exactly when `i >= len`, so every `at` on the default view throws; and for
`i < len` both `at(i)` and `operator[](i)` yield the unit `i` places after `str`, which
is element `i` of the sequence stored there. -/
theorem C16_size_and_element_access (m : Mem) (str len i : Nat) :
    size (from_ptr_size str len) = len ∧
    («at» m (from_ptr_size str len) i = Res.out_of_range ↔ i ≥ len) ∧
    (i < len →
      «at» m (from_ptr_size str len) i = Res.ret (m (str + i)) ∧
      index m (from_ptr_size str len) i = m (str + i)) ∧
    «at» m default_view i = Res.out_of_range ∧
    (∀ xs : List Nat, i < xs.length →
      «at» (store m str xs) (from_ptr_size str xs.length) i = Res.ret (xs.getD i 0) ∧
      index (store m str xs) (from_ptr_size str xs.length) i = xs.getD i 0) := by
  have hstore : ∀ xs : List Nat, i < xs.length → store m str xs (str + i) = xs.getD i 0 := by
    intro xs hi
    unfold store
    rw [if_pos ⟨by omega, by omega⟩, Nat.add_sub_cancel_left]
  refine ⟨rfl, ?_, ?_, ?_, ?_⟩
  · unfold «at» from_ptr_size
    by_cases h : i ≥ len
    · simp [h]
    · simp [h]
  · intro h
    unfold «at» index from_ptr_size
    exact ⟨by rw [if_neg (by simpa using h)], rfl⟩
  · unfold «at» default_view
    rw [if_pos (Nat.zero_le i)]
  · intro xs hi
    unfold «at» index from_ptr_size
    exact ⟨by rw [if_neg (by simpa using hi), hstore xs hi], hstore xs hi⟩

/-- Witness of C16: element 4 of `"Hello world"` is `'o'`. -/
theorem C16_size_and_element_access_witness :
    (4 < 11) ∧
    «at» sample_mem (from_ptr_size 16 11) 4 = Res.ret 111 ∧
    index sample_mem (from_ptr_size 16 11) 4 = 111 :=
  ⟨by decide, (C16_size_and_element_access sample_mem 16 11 4).2.2.1 (by decide)⟩

/-- C18: for `p1 <= size_` and `p2 <= min(c1, size_ - p1)`, both `substr(p1, c1)` followed
by `substr(p2, c2)` and the direct `substr(p1 + p2, min(c1 - p2, c2))` return, and they
return the same view (same `data_`, same `size_`), which therefore compares equal. -/
theorem C18_substr_composes (m : Mem) (s : basic_string_view) (p1 c1 p2 c2 : Nat)
    (h1 : p1 ≤ s.size_) (h2 : p2 ≤ min c1 (s.size_ - p1)) :
    ∃ v w, substr s p1 c1 = Res.ret v ∧ substr v p2 c2 = Res.ret w ∧
      substr s (p1 + p2) (min (c1 - p2) c2) = Res.ret w ∧
      w.data_ = s.data_ + (p1 + p2) ∧
      operator_eq m w w = true := by
  have hm : p2 ≤ c1 ∧ p2 ≤ s.size_ - p1 := by
    unfold min at h2
    split at h2 <;> omega
  refine ⟨⟨s.data_ + p1, min c1 (s.size_ - p1)⟩,
    ⟨s.data_ + p1 + p2, min c2 (min c1 (s.size_ - p1) - p2)⟩, ?_, ?_, ?_, ?_, ?_⟩
  · unfold substr
    rw [if_neg (by omega)]
  · unfold substr
    dsimp only
    rw [if_neg (by omega)]
  · unfold substr
    rw [if_neg (by omega)]
    have e1 : s.data_ + (p1 + p2) = s.data_ + p1 + p2 := by omega
    have e2 : min (min (c1 - p2) c2) (s.size_ - (p1 + p2))
        = min c2 (min c1 (s.size_ - p1) - p2) := by
      unfold min
      split <;> split <;> split <;> split <;> omega
    simp only [e1, e2]
  · show s.data_ + p1 + p2 = s.data_ + (p1 + p2)
    omega
  · rw [operator_eq_iff]
    exact ⟨rfl, fun _ _ => rfl⟩

/-- Witness of C18 on `"Hello world"`: `substr(2, 7).substr(3, 10)` and `substr(5, 4)`. -/
theorem C18_substr_composes_witness :
    ((2 : Nat) ≤ 11 ∧ 3 ≤ min 7 (11 - 2)) ∧
    substr ⟨16, 11⟩ 2 7 = Res.ret ⟨18, 7⟩ ∧
    substr ⟨18, 7⟩ 3 10 = Res.ret ⟨21, 4⟩ ∧
    substr ⟨16, 11⟩ (2 + 3) (min (7 - 3) 10) = Res.ret ⟨21, 4⟩ ∧
    ∃ v w, substr ⟨16, 11⟩ 2 7 = Res.ret v ∧ substr v 3 10 = Res.ret w ∧
      substr ⟨16, 11⟩ (2 + 3) (min (7 - 3) 10) = Res.ret w ∧
      w.data_ = 16 + (2 + 3) ∧
      operator_eq sample_mem w w = true :=
  ⟨by decide, by decide, by decide, by decide,
   C18_substr_composes sample_mem ⟨16, 11⟩ 2 7 3 10 (by decide) (by decide)⟩

/-- C19: the narrow hash of a view is the fold `h := (h * prime) xor unit` over its
units, seeded with the FNV offset, and the wide hash is the fold `h := h * 33 + unit`
seeded with 5381, both in `size_t` arithmetic; hence two views with the same unit
sequence, also in different memories or at different addresses, have the same hashes,
and so do any two views with `a == b`. -/
theorem C19_equal_content_equal_hash (cast : Nat → Nat) (m : Mem) (a b : basic_string_view) :
    hash_string_view cast m a = List.foldl (fnv_step cast) fnv.offset (units m a) ∧
    hash_wstring_view cast m a = List.foldl (djb2_step cast) 5381 (units m a) ∧
    (∀ m2 : Mem, units m a = units m2 b →
      hash_string_view cast m a = hash_string_view cast m2 b ∧
      hash_wstring_view cast m a = hash_wstring_view cast m2 b) ∧
    (operator_eq m a b = true →
      hash_string_view cast m a = hash_string_view cast m b ∧
      hash_wstring_view cast m a = hash_wstring_view cast m b) := by
  have hn : ∀ (m1 : Mem) (v : basic_string_view),
      hash_string_view cast m1 v = List.foldl (fnv_step cast) fnv.offset (units m1 v) := by
    intro m1 v
    unfold hash_string_view
    exact hash_string_view_loop_eq_foldl cast m1 v.size_ v.data_ fnv.offset
  have hw : ∀ (m1 : Mem) (v : basic_string_view),
      hash_wstring_view cast m1 v = List.foldl (djb2_step cast) 5381 (units m1 v) := by
    intro m1 v
    unfold hash_wstring_view
    exact hash_wstring_view_loop_eq_foldl cast m1 v.size_ v.data_ 5381
  have hunits : ∀ m2 : Mem, units m a = units m2 b →
      hash_string_view cast m a = hash_string_view cast m2 b ∧
      hash_wstring_view cast m a = hash_wstring_view cast m2 b := by
    intro m2 h
    rw [hn m a, hn m2 b, hw m a, hw m2 b, h]
    exact ⟨rfl, rfl⟩
  refine ⟨hn m a, hw m a, hunits, ?_⟩
  intro h
  exact hunits m ((operator_eq_iff_units m a b).mp h)

/-- Witness of C19: `"aa"` at address 96 and the first two units of `"aaa"` at address
112 compare equal and hash alike. -/
theorem C19_equal_content_equal_hash_witness :
    operator_eq sample_mem ⟨96, 2⟩ ⟨112, 2⟩ = true ∧
    hash_string_view (fun c => c) sample_mem ⟨96, 2⟩
      = hash_string_view (fun c => c) sample_mem ⟨112, 2⟩ ∧
    hash_wstring_view (fun c => c) sample_mem ⟨96, 2⟩
      = hash_wstring_view (fun c => c) sample_mem ⟨112, 2⟩ :=
  ⟨by decide,
   (C19_equal_content_equal_hash (fun c => c) sample_mem ⟨96, 2⟩ ⟨112, 2⟩).2.2.2 (by decide)⟩

/-- C20: `rfind(needle, pos)` run with fuel above `size_` returns, and a result `r` other
than `npos` satisfies `r <= min(pos, size_)`, `r + |needle| <= size_` and
`s[r + k] == needle[k]` for every `k < |needle|`; likewise a result of `rfind(c, pos)`
other than `npos` is an index of the view at most `min(pos, size_)` that holds `c`. -/
theorem C20_rfind_result_is_occurrence (fuel : Nat) (m : Mem) (s needle : basic_string_view)
    (c pos : Nat) (hfuel : s.size_ < fuel) :
    (∃ r, rfind_view fuel m s needle pos = Res.ret r ∧
      (r ≠ npos → r ≤ Nat.min pos s.size_ ∧ r + needle.size_ ≤ s.size_ ∧
        ∀ k, k < needle.size_ → m (s.data_ + (r + k)) = m (needle.data_ + k))) ∧
    (∃ r, rfind_char m s c pos = Res.ret r ∧
      (r ≠ npos → r ≤ Nat.min pos s.size_ ∧ r + 1 ≤ s.size_ ∧ m (s.data_ + r) = c)) := by
  have hmin : min pos s.size_ ≤ s.size_ ∧ min pos s.size_ ≤ pos := by
    unfold min
    split
    · exact ⟨by omega, by omega⟩
    · exact ⟨by omega, by omega⟩
  constructor
  · by_cases hemp : needle.size_ = 0
    · refine ⟨min pos s.size_, ?_, fun _ => ⟨?_, by omega, fun k hk => by omega⟩⟩
      · unfold rfind_view empty
        simp [hemp]
      · rw [min_eq_nat_min]
    · obtain ⟨f, hf⟩ : ∃ f, fuel = f + 1 := ⟨fuel - 1, by omega⟩
      obtain ⟨r, hr, hsound⟩ := rfind_loop_sound m s needle f (min pos s.size_) (by omega)
      refine ⟨r, ?_, fun hne => ?_⟩
      · unfold rfind_view empty
        simp only [hemp, decide_False, Bool.false_eq_true, if_false]
        rw [hf]
        exact hr
      · obtain ⟨h1, h2, h3⟩ := hsound hne
        refine ⟨?_, h2, h3⟩
        rw [← min_eq_nat_min]
        omega
  · obtain ⟨r, hr, hspec⟩ := rfind_char_spec m s c pos
    refine ⟨r, hr, fun hne => ?_⟩
    rcases hspec with ⟨e, -⟩ | ⟨h1, h2, h3, -⟩
    · exact absurd e hne
    · exact ⟨Nat.le_min.mpr ⟨by omega, by omega⟩, by omega, h3⟩

/-- Witness of C20: `"aaaa"` searched backwards for `"aa"` with fuel 5; the result 1 is
an occurrence. -/
theorem C20_rfind_result_is_occurrence_witness :
    ((4 : Nat) < 5) ∧
    rfind_view 5 sample_mem ⟨80, 4⟩ ⟨96, 2⟩ npos = Res.ret 1 ∧
    occurs_at sample_mem ⟨80, 4⟩ ⟨96, 2⟩ 1 ∧
    (∃ r, rfind_view 5 sample_mem ⟨80, 4⟩ ⟨96, 2⟩ npos = Res.ret r ∧
      (r ≠ npos → r ≤ Nat.min npos 4 ∧ r + 2 ≤ 4 ∧
        ∀ k, k < 2 → sample_mem (80 + (r + k)) = sample_mem (96 + k))) :=
  ⟨by decide, by decide, by decide,
   (C20_rfind_result_is_occurrence 5 sample_mem ⟨80, 4⟩ ⟨96, 2⟩ 97 npos (by decide)).1⟩

/-- C21: on `"Hello world"` with the unit `'o'` and the one-unit set `"o"`, the single-unit
overloads differ from the set overloads: `find_last_of('o', 4)` is `npos` where
`find_last_of("o", 4)` is 4, `find_last_of('o', 7)` is 4 where `find_last_of("o", 7)` is
7, and `find_first_of('o', 12)` throws out-of-range where `find_first_of("o", 12)` is
`npos`. With the default `pos` the backward pair agrees, and so does the forward pair
from `pos = 5`. -/
theorem C21_single_unit_overloads_differ :
    units sample_mem_sets ⟨161, 1⟩ = [111] ∧
    find_last_of_char sample_mem_sets ⟨16, 11⟩ 111 4 = Res.ret npos ∧
    find_last_of sample_mem_sets ⟨16, 11⟩ ⟨161, 1⟩ 4 = Res.ret 4 ∧
    find_last_of_char sample_mem_sets ⟨16, 11⟩ 111 7 = Res.ret 4 ∧
    find_last_of sample_mem_sets ⟨16, 11⟩ ⟨161, 1⟩ 7 = Res.ret 7 ∧
    find_first_of_char sample_mem_sets ⟨16, 11⟩ 111 12 = Res.out_of_range ∧
    find_first_of sample_mem_sets ⟨16, 11⟩ ⟨161, 1⟩ 12 = Res.ret npos ∧
    find_last_of_char sample_mem_sets ⟨16, 11⟩ 111 npos = Res.ret 7 ∧
    find_last_of sample_mem_sets ⟨16, 11⟩ ⟨161, 1⟩ npos = Res.ret 7 ∧
    find_first_of_char sample_mem_sets ⟨16, 11⟩ 111 5 = Res.ret 7 ∧
    find_first_of sample_mem_sets ⟨16, 11⟩ ⟨161, 1⟩ 5 = Res.ret 7 := by
  decide

/-- C22: `find(needle, pos)` and `rfind(needle, pos)` run with fuel above `size_` return a
value, so they neither run on for ever nor throw. The checked calls they make are in
range: `find(c, p)` returns for every `p <= size_` and a pick other than `npos` lies in
`[p, size_)`, so the next start `pick + 1` is larger than `p`; `rfind(c, p)` returns for
every `p` and a pick other than `npos` lies below `p` and below `size_`, so the next bound
`pick - 1` is smaller than `p`; and `substr(pick, chars)` returns for every
`pick <= size_`. -/
theorem C22_view_searches_total (fuel : Nat) (m : Mem) (s needle : basic_string_view)
    (pos : Nat) (hs : s.size_ < SIZE_MOD) (hfuel : s.size_ < fuel) :
    (∃ r, find_view fuel m s needle pos = Res.ret r) ∧
    (∃ r, rfind_view fuel m s needle pos = Res.ret r) ∧
    (∀ c p, p ≤ s.size_ → ∃ pick, find_char m s c p = Res.ret pick ∧
      (pick ≠ npos → p ≤ pick ∧ pick < s.size_ ∧ p < size_add pick 1)) ∧
    (∀ c p, ∃ pick, rfind_char m s c p = Res.ret pick ∧
      (pick ≠ npos → pick < p ∧ pick < s.size_ ∧ pick - 1 < p)) ∧
    (∀ pick chars, pick ≤ s.size_ → ∃ sub, substr s pick chars = Res.ret sub) := by
  refine ⟨?_, ?_, ?_, ?_, ?_⟩
  · by_cases hge : pos ≥ s.size_
    · exact ⟨npos, by unfold find_view; rw [if_pos hge]⟩
    · by_cases hemp : needle.size_ = 0
      · refine ⟨pos, ?_⟩
        unfold find_view empty
        rw [if_neg hge]
        simp [hemp]
      · obtain ⟨f, hf⟩ : ∃ f, fuel = f + 1 := ⟨fuel - 1, by omega⟩
        obtain ⟨r, hr, -⟩ := find_loop_spec m s needle hs hemp f pos (by omega)
        refine ⟨r, ?_⟩
        unfold find_view empty
        rw [if_neg hge, hf]
        simpa [hemp] using hr
  · have hmin : min pos s.size_ ≤ s.size_ := by
      unfold min
      split <;> omega
    by_cases hemp : needle.size_ = 0
    · refine ⟨min pos s.size_, ?_⟩
      unfold rfind_view empty
      simp [hemp]
    · obtain ⟨f, hf⟩ : ∃ f, fuel = f + 1 := ⟨fuel - 1, by omega⟩
      obtain ⟨r, hr, -⟩ := rfind_loop_sound m s needle f (min pos s.size_) (by omega)
      refine ⟨r, ?_⟩
      unfold rfind_view empty
      simp only [hemp, decide_False, Bool.false_eq_true, if_false]
      rw [hf]
      exact hr
  · intro c p hp
    rcases find_char_spec m s c p hs hp with ⟨hr, -⟩ | ⟨r, hr, h2, h3, -, -⟩
    · exact ⟨npos, hr, fun h => absurd rfl h⟩
    · refine ⟨r, hr, fun _ => ⟨h2, h3, ?_⟩⟩
      have : size_add r 1 = r + 1 := by
        unfold size_add; exact Nat.mod_eq_of_lt (by omega)
      omega
  · intro c p
    obtain ⟨r, hr, hspec⟩ := rfind_char_spec m s c p
    refine ⟨r, hr, fun hne => ?_⟩
    rcases hspec with ⟨e, -⟩ | ⟨h2, h3, -, -⟩
    · exact absurd e hne
    · exact ⟨h2, h3, by omega⟩
  · intro pick chars hp
    refine ⟨⟨s.data_ + pick, min chars (s.size_ - pick)⟩, ?_⟩
    unfold substr
    rw [if_neg (by omega)]

/-- Witness of C22: `"aaaa"` searched for `"aa"` in both directions with fuel 5. -/
theorem C22_view_searches_total_witness :
    ((4 : Nat) < SIZE_MOD ∧ (4 : Nat) < 5) ∧
    find_view 5 sample_mem ⟨80, 4⟩ ⟨96, 2⟩ 1 = Res.ret 1 ∧
    rfind_view 5 sample_mem ⟨80, 4⟩ ⟨96, 2⟩ 1 = Res.ret 0 ∧
    (∃ r, find_view 5 sample_mem ⟨80, 4⟩ ⟨96, 2⟩ 1 = Res.ret r) ∧
    (∃ r, rfind_view 5 sample_mem ⟨80, 4⟩ ⟨96, 2⟩ 1 = Res.ret r) :=
  ⟨by decide, by decide, by decide,
   (C22_view_searches_total 5 sample_mem ⟨80, 4⟩ ⟨96, 2⟩ 1 (by decide) (by decide)).1,
   (C22_view_searches_total 5 sample_mem ⟨80, 4⟩ ⟨96, 2⟩ 1 (by decide) (by decide)).2.1⟩

end basic_string_view
end essentials
